import Mathlib

/-!
Verification of the dependency-graph task scheduler of `bit-digital`
(`src/modules/tasks_parser.py` and `src/modules/scheduling.py`).

The embedding is shallow:
* a Python `dict {name: Task}` becomes an insertion-ordered `List Task`
  whose names are pairwise distinct (`(names tasks).Nodup` is carried as a
  hypothesis where it matters, since Python dict keys are unique);
* Python `int` becomes `Int`;
* fallible functions (`raise ValueError`, `KeyError`) become
  `Except String` / `Option`;
* the two dispatch loops of `scheduling.py` become a small-step transition
  relation whose traces include every interleaving the Python loops can
  produce (single-dispatcher admissions and one-at-a-time completion
  processing).
-/

namespace BitDigital

/-- Container for a single task, mirroring class `Task` of
`tasks_parser.py` (and `HPC_Task` of `scheduling.py`, whose `meta` field is
opaque and is not modelled). -/
structure Task where
  name : String
  duration : Int
  dependencies : List String
deriving Repr, DecidableEq

/-- Insertion-ordered key list of the Python dict `{name: Task}`. -/
def names (tasks : List Task) : List String := tasks.map Task.name

/-- Dependency list of the task stored under key `x` (`tasks[x].dependencies`);
`[]` when `x` is not a key, a case the Python dict lookup cannot hit on the
paths we model. -/
def depsOf (tasks : List Task) (x : String) : List String :=
  match tasks.find? (fun t => t.name == x) with
  | some t => t.dependencies
  | none => []

/-- Adjacency list built by `validate_and_topological_sort` lines 69-76 (and
rebuilt identically by both schedulers): `adjacency_list[d]` receives one
append of `t.name` for every occurrence of `d` in `t.dependencies`, iterating
tasks in insertion order.  Missing keys of the Python `defaultdict(list)` read
as `[]`, which the `flatMap` of empty replicates reproduces. -/
def adjacencyOf (tasks : List Task) (d : String) : List String :=
  tasks.flatMap (fun t => List.replicate (t.dependencies.count d) t.name)

/-- Initial in-degree table of lines 70-76 (and scheduler lines 54-58,
163-167): starting from 0, `in_degree[t] += 1` once per dependency occurrence,
so each task name maps to the length of its dependency list; non-keys read 0. -/
def indegOf (tasks : List Task) (x : String) : Int :=
  ((depsOf tasks x).length : Int)

/-- First (task, dependency) pair whose dependency is not a task name, in
iteration order — the check of `validate_and_topological_sort` lines 63-67. -/
def findUnknownDep (tasks : List Task) : Option (String × String) :=
  tasks.findSome? (fun t =>
    (t.dependencies.find? (fun d => !(decide (d ∈ names tasks)))).map
      (fun d => (t.name, d)))

/-- Inner loop of Kahn processing (lines 85-88 of `tasks_parser.py`; lines
88-92 and 218-221 of `scheduling.py`): for each entry `t` of the completed
node's adjacency list, decrement `in_degree[t]` and append `t` to the queue
exactly when the decremented value is 0. -/
def processDeps (adj : List String) (indeg : String → Int) (queue : List String) :
    (String → Int) × List String :=
  match adj with
  | [] => (indeg, queue)
  | t :: rest =>
    processDeps rest (fun x => if x = t then indeg x - 1 else indeg x)
      (if indeg t - 1 = 0 then queue ++ [t] else queue)

/-- Kahn worklist loop of lines 82-88: pop the queue front, append it to the
topological order, process its adjacency list.  The Python `while queue:` loop
pops once per iteration and each name enters the queue at most twice over a
whole run (once from the initial seeding and at most once when its weakly
decreasing in-degree first reaches 0), so the loop runs at most `2·|tasks|`
iterations; the caller passes fuel `2·|tasks| + 1`, which therefore never runs
out. -/
def kahnLoop (adj : String → List String) :
    Nat → List String → List String → (String → Int) →
    (List String × (String → Int))
  | 0, _, topo, indeg => (topo, indeg)
  | _ + 1, [], topo, indeg => (topo, indeg)
  | fuel + 1, current :: rest, topo, indeg =>
    let step := processDeps (adj current) indeg rest
    kahnLoop adj fuel step.2 (topo ++ [current]) step.1

/-- Whole Kahn run of lines 78-88: queue seeded with the zero in-degree names
in dict order, empty order, fresh in-degree table. -/
def kahnRun (tasks : List Task) : List String × (String → Int) :=
  kahnLoop (adjacencyOf tasks) (2 * tasks.length + 1)
    ((names tasks).filter (fun n => indegOf tasks n == 0)) [] (indegOf tasks)

/-- Lines 58-92 of `tasks_parser.py`: reject unknown dependencies, run Kahn's
algorithm, reject when the produced order misses tasks (cycle), otherwise
return `(topo_order, adjacency_list, in_degree)` with the in-place decremented
in-degree table. -/
def validate_and_topological_sort (tasks : List Task) :
    Except String (List String × (String → List String) × (String → Int)) :=
  match findUnknownDep tasks with
  | some p =>
    .error ("Task \x27" ++ p.1 ++ "\x27 depends on unknown \x27" ++ p.2 ++ "\x27.")
  | none =>
    if (kahnRun tasks).1.length = tasks.length then
      .ok ((kahnRun tasks).1, adjacencyOf tasks, (kahnRun tasks).2)
    else .error "Cycle detected in dependencies."

/-- Python `max(earliest_finish[d] for d in deps)` of line 106: `none` when
some dependency has no earliest-finish entry yet (Python `KeyError`); callers
only reach it with a non-empty dependency list. -/
def maxDepEF (ef : List (String × Int)) : List String → Option Int
  | [] => none
  | [d] => List.lookup d ef
  | d :: e :: rest =>
    match List.lookup d ef, maxDepEF ef (e :: rest) with
    | some v, some m => some (max v m)
    | _, _ => none

/-- Loop of lines 100-107 building the `earliest_finish` insertion-ordered
dict: a task with no dependencies finishes at its own duration, otherwise at
the dependency maximum plus its duration.  `none` models the `KeyError` on
`tasks[t_name]` or on a missing dependency entry. -/
def computeEF (tasks : List Task) : List String → List (String × Int) →
    Option (List (String × Int))
  | [], ef => some ef
  | tn :: rest, ef =>
    match tasks.find? (fun t => t.name == tn) with
    | none => none
    | some t =>
      match t.dependencies with
      | [] => computeEF tasks rest (ef ++ [(tn, t.duration)])
      | d :: ds =>
        match maxDepEF ef (d :: ds) with
        | none => none
        | some m => computeEF tasks rest (ef ++ [(tn, m + t.duration)])

/-- Lines 94-109 of `tasks_parser.py`; the final `max(earliest_finish.values())`
raises `ValueError` on an empty dict, modelled as `none`. -/
def compute_expected_runtime (tasks : List Task) (topo : List String) : Option Int :=
  match computeEF tasks topo [] with
  | none => none
  | some ef =>
    match ef.map Prod.snd with
    | [] => none
    | v :: vs => some (vs.foldl max v)

/-! Parsing (`parse_tasks`, lines 20-56).  Python string primitives are
re-implemented structurally over `List Char` so that everything reduces:
`strip`, `split(',', 2)`, `startswith('#')`, whitespace `split()`, and the
accepted shape of a Python `int(...)` literal (optional sign, decimal digits,
single underscores allowed between digits). -/

/-- ASCII whitespace recognised by Python `str.strip()` / `str.split()`.
Python also strips a handful of further Unicode space characters, which no
claim exercises. -/
def isSpace (c : Char) : Bool :=
  c = ' ' || c = '\t' || c = '\n' || c = '\r' || c = '\x0b' || c = '\x0c'

/-- Drop leading whitespace characters. -/
def dropSpaces : List Char → List Char
  | [] => []
  | c :: cs => if isSpace c then dropSpaces cs else c :: cs

/-- Python `str.strip()`: remove leading and trailing whitespace. -/
def strip (cs : List Char) : List Char :=
  ((dropSpaces ((dropSpaces cs).reverse)).reverse)

/-- Split at the first comma, when there is one. -/
def splitFirstComma : List Char → Option (List Char × List Char)
  | [] => none
  | c :: cs =>
    if c = ',' then some ([], cs)
    else (splitFirstComma cs).map (fun p => (c :: p.1, p.2))

/-- Python `line.split(',', 2)`: at most two splits, the tail keeps its
commas. -/
def split2 (cs : List Char) : List (List Char) :=
  match splitFirstComma cs with
  | none => [cs]
  | some (a, rest) =>
    match splitFirstComma rest with
    | none => [a, rest]
    | some (b, rest2) => [a, b, rest2]

/-- Digit run of a Python decimal `int(...)` literal: the tail after a first
digit, where an underscore must be followed by a digit (single underscores
between digits only) and every other character is a digit. -/
def pyDigitsCore : List Char → Nat → Option Nat
  | [], acc => some acc
  | c :: cs, acc =>
    if c.isDigit then pyDigitsCore cs (acc * 10 + (c.toNat - 48))
    else if c = '_' then
      match cs with
      | d :: _ => if d.isDigit then pyDigitsCore cs acc else none
      | [] => none
    else none

/-- Unsigned part of a Python `int(...)` literal: must start with a digit. -/
def pyNat (cs : List Char) : Option Nat :=
  match cs with
  | c :: _ => if c.isDigit then pyDigitsCore cs 0 else none
  | [] => none

/-- Python `int(s)` on an already-stripped string: optional sign then a
decimal digit run. -/
def pyInt (cs : List Char) : Option Int :=
  match cs with
  | '+' :: rest => (pyNat rest).map (fun n => (n : Int))
  | '-' :: rest => (pyNat rest).map (fun n => -(n : Int))
  | _ => (pyNat cs).map (fun n => (n : Int))

/-- Python `dep_str.split()`: whitespace-separated tokens, no empties. -/
def wsTokensGo : List Char → List Char → List (List Char)
  | [], tok => if tok.isEmpty then [] else [tok.reverse]
  | c :: cs, tok =>
    if isSpace c then
      if tok.isEmpty then wsTokensGo cs [] else tok.reverse :: wsTokensGo cs []
    else wsTokensGo cs (c :: tok)

/-- Python `dep_str.split()` entry point. -/
def wsTokens (cs : List Char) : List (List Char) := wsTokensGo cs []

/-- Dependency names extracted from the optional third field (lines 45-49):
absent or whitespace-only means no dependencies. -/
def depsFromField (restParts : List (List Char)) : List String :=
  match restParts with
  | [] => []
  | p2 :: _ =>
    let ds := strip p2
    if ds.isEmpty then [] else (wsTokens ds).map String.mk

/-- Line loop of `parse_tasks` (lines 26-54): 1-based line counting, blank
and `#` lines skipped, split into at most three comma fields, integer
duration, duplicate-name check against the tasks parsed so far, errors citing
the offending line number. -/
def parseRecords : List String → Nat → List Task → Except String (List Task)
  | [], _, acc => .ok acc
  | line :: rest, lineNum, acc =>
    let s := strip line.data
    if s.isEmpty || s.headD ' ' = '#' then parseRecords rest (lineNum + 1) acc
    else
      match split2 s with
      | p0 :: p1 :: restParts =>
        let nm := String.mk (strip p0)
        match pyInt (strip p1) with
        | none =>
          .error ("Line " ++ toString lineNum ++ ": Duration must be integer.")
        | some dur =>
          let deps := depsFromField restParts
          if nm ∈ names acc then
            .error ("Line " ++ toString lineNum ++ ": Duplicate task name \x27"
              ++ nm ++ "\x27.")
          else parseRecords rest (lineNum + 1) (acc ++ [⟨nm, dur, deps⟩])
      | _ =>
        .error ("Line " ++ toString lineNum
          ++ ": must have at least \x27name,duration\x27.")

/-- Lines 20-56 of `tasks_parser.py`, the file abstracted as its list of
lines (newline-free). -/
def parse_tasks (lines : List String) : Except String (List Task) :=
  parseRecords lines 1 []

/-! The two dispatch loops of `scheduling.py` as one small-step system.
`run_tasks_with_threads` (lines 54-92) and `run_tasks_multiprocessing`
(lines 163-221) share the readiness mechanics exactly: a FIFO ready queue
seeded with the zero in-degree tasks, admission only from the queue front,
and, when a worker signals completion, one atomic pass over the finished
task's adjacency list decrementing in-degrees and enqueueing tasks that
reach 0.  `submit` is one admission (`executor.submit` / `spawn_task`);
`complete` is the dispatcher processing one completion signal.  Both Python
loops produce traces of this relation: they only fix particular orders of
admissions and completion processing, which the relation leaves free. -/

/-- Dispatcher-owned mutable state shared by both scheduler backends. -/
structure SchedState where
  queue : List String
  running : List String
  finished : List String
  indeg : String → Int

/-- One dispatcher action of either scheduler backend. -/
inductive SchedStep (tasks : List Task) : SchedState → SchedState → Prop
  | submit (t : String) (rest running finished : List String) (indeg : String → Int) :
    SchedStep tasks ⟨t :: rest, running, finished, indeg⟩
      ⟨rest, t :: running, finished, indeg⟩
  | complete (t : String) (queue running finished : List String) (indeg : String → Int)
      (h : t ∈ running) :
    SchedStep tasks ⟨queue, running, finished, indeg⟩
      ⟨(processDeps (adjacencyOf tasks t) indeg queue).2, running.erase t,
        t :: finished, (processDeps (adjacencyOf tasks t) indeg queue).1⟩

/-- State both backends start from (lines 54-61 / 163-169): fresh in-degree
table, ready queue seeded with the zero in-degree tasks in dict order,
nothing running or finished. -/
def initState (tasks : List Task) : SchedState :=
  ⟨(names tasks).filter (fun n => indegOf tasks n == 0), [], [],
    fun x => indegOf tasks x⟩

/-- States a scheduler run can reach. -/
def Reachable (tasks : List Task) (s : SchedState) : Prop :=
  Relation.ReflTransGen (SchedStep tasks) (initState tasks) s

/-! Placement bookkeeping of `run_tasks_multiprocessing` (`spawn_task`,
lines 178-190).  Domains are carried as their `active_count` values in
enumeration order of `node_list`; `min(node_list, key=...)` picks the first
index with the least count, which is then incremented. -/

/-- Increment the first element equal to `m`. -/
def incFirst (m : Nat) : List Nat → List Nat
  | [] => []
  | c :: cs => if c = m then (c + 1) :: cs else c :: incFirst m cs

/-- Least element of a non-empty count list (`min` with default/first seed). -/
def minCount (c : Nat) (cs : List Nat) : Nat := cs.foldl min c

/-- One `spawn_task` admission (lines 179-180): pick the first domain of
least `active_count` and increment it. -/
def admitOne : List Nat → List Nat
  | [] => []
  | c :: cs => incFirst (minCount c cs) (c :: cs)

/-- Domain loads after `k` admissions into `n` domains whose counts start at
0 (`active_on_node = {nid: 0 for nid in node_list}`, line 173). -/
def admitted (n k : Nat) : List Nat :=
  admitOne^[k] (List.replicate n 0)

/-! Analysis-side notions used to state the claims. -/

/-- Every dependency of `x` lies in `visited`. -/
def DepsDone (tasks : List Task) (x : String) (visited : List String) : Prop :=
  ∀ d ∈ depsOf tasks x, d ∈ visited

/-- Number of dependency occurrences not yet in `visited` — the value Kahn's
in-place decrements keep `in_degree` at. -/
def countNotIn (deps visited : List String) : Nat :=
  (deps.filter (fun d => !(decide (d ∈ visited)))).length

/-- Edge of the dependency relation: `b` depends on `a`. -/
def DepEdge (tasks : List Task) (a b : String) : Prop :=
  ∃ t ∈ tasks, t.name = b ∧ a ∈ t.dependencies

/-- Field of a record a parsed line would yield: ignored lines (blank or
`#`-prefixed after stripping). -/
def isIgnored (line : String) : Bool :=
  (strip line.data).isEmpty || (strip line.data).headD ' ' = '#'

/-- Record with fewer than two comma-separated fields. -/
def isMalformed (line : String) : Bool :=
  (split2 (strip line.data)).length < 2

/-- Stripped duration field of a well-formed record. -/
def durationField (line : String) : Option (List Char) :=
  match split2 (strip line.data) with
  | _ :: p1 :: _ => some (strip p1)
  | _ => none

/-- Stripped name field of a record. -/
def recName (line : String) : String :=
  match split2 (strip line.data) with
  | p0 :: _ => String.mk (strip p0)
  | [] => ""

/-- Replace the duration declared for task `tname`, keeping the graph
structure fixed. -/
def setDuration (tasks : List Task) (tname : String) (d : Int) : List Task :=
  tasks.map (fun t => if t.name = tname then ⟨t.name, d, t.dependencies⟩ else t)

/-- Earliest-finish value recorded for `x` in the association list built by
`computeEF` (0 when absent, a case sound uses rule out). -/
def efLookup (ef : List (String × Int)) (x : String) : Int :=
  (List.lookup x ef).getD 0

/-- Loop invariant of Kahn's algorithm: the in-degree table counts exactly the
dependency occurrences not yet in the produced order, queued names are tasks
whose dependencies all appear in the order, every produced position has its
dependencies strictly earlier, and no name repeats across queue and order. -/
def KahnInv (tasks : List Task) (queue topo : List String) (indeg : String → Int) : Prop :=
  (∀ n ∈ names tasks, indeg n = (countNotIn (depsOf tasks n) topo : Int)) ∧
  (∀ x ∈ queue, x ∈ names tasks ∧ DepsDone tasks x topo) ∧
  (∀ i, (hi : i < topo.length) → topo.get ⟨i, hi⟩ ∈ names tasks ∧
    DepsDone tasks (topo.get ⟨i, hi⟩) (topo.take i)) ∧
  (queue ++ topo).Nodup

/-- Dispatcher invariant shared by both scheduler backends: the in-degree
table counts unfinished dependency occurrences, queued tasks have all
dependencies finished, running and finished tasks likewise, and no task name
repeats across the three pools. -/
def SchedInv (tasks : List Task) (queue running finished : List String)
    (indeg : String → Int) : Prop :=
  (∀ n ∈ names tasks, indeg n = (countNotIn (depsOf tasks n) finished : Int)) ∧
  (∀ x ∈ queue, x ∈ names tasks ∧ DepsDone tasks x finished) ∧
  (∀ x ∈ running, x ∈ names tasks ∧ DepsDone tasks x finished) ∧
  (∀ x ∈ finished, x ∈ names tasks ∧ DepsDone tasks x finished) ∧
  (queue ++ running ++ finished).Nodup

/-! Counting lemmas: `countNotIn deps visited` is the value the in-place
decrements keep `in_degree` at. -/

theorem countNotIn_nil (deps : List String) : countNotIn deps [] = deps.length := by
  simp [countNotIn]

theorem countNotIn_congr (deps v1 v2 : List String) (h : ∀ d, d ∈ v1 ↔ d ∈ v2) :
    countNotIn deps v1 = countNotIn deps v2 := by
  unfold countNotIn
  congr 1
  apply List.filter_congr
  intro d _
  simp [h d]

theorem countNotIn_consDep (d : String) (ds v : List String) :
    countNotIn (d :: ds) v = countNotIn ds v + (if d ∈ v then 0 else 1) := by
  by_cases hd : d ∈ v <;> simp [countNotIn, List.filter_cons, hd]

theorem countNotIn_cons (deps : List String) (x : String) (v : List String)
    (hx : x ∉ v) : countNotIn deps (x :: v) + deps.count x = countNotIn deps v := by
  induction deps with
  | nil => simp [countNotIn]
  | cons d ds ih =>
    rw [countNotIn_consDep, countNotIn_consDep, List.count_cons]
    by_cases hdx : d = x
    · subst hdx
      have h1 : d ∈ d :: v := List.mem_cons_self _ _
      rw [if_pos h1, if_neg hx]
      simp only [beq_self_eq_true, if_true]
      omega
    · have h1 : (d ∈ x :: v) ↔ (d ∈ v) := by simp [List.mem_cons, hdx]
      have h2 : (d == x) = false := beq_eq_false_iff_ne.2 hdx
      rw [h2, if_neg Bool.false_ne_true]
      by_cases hdv : d ∈ v
      · rw [if_pos (h1.2 hdv), if_pos hdv]; omega
      · rw [if_neg (fun h => hdv (h1.1 h)), if_neg hdv]; omega

theorem countNotIn_eq_zero (deps v : List String) :
    countNotIn deps v = 0 ↔ ∀ d ∈ deps, d ∈ v := by
  unfold countNotIn
  rw [List.length_eq_zero, List.filter_eq_nil_iff]
  constructor
  · intro h d hd
    have := h d hd
    simpa using this
  · intro h d hd
    simpa using h d hd

theorem countNotIn_le_of_count (deps : List String) (x : String) (v : List String)
    (hx : x ∉ v) : deps.count x ≤ countNotIn deps v := by
  have := countNotIn_cons deps x v hx
  omega

/-! Lemmas about the inner decrement pass (`processDeps`). -/

theorem processDeps_fst (adj : List String) :
    ∀ indeg queue x, (processDeps adj indeg queue).1 x =
      indeg x - (adj.count x : Int) := by
  induction adj with
  | nil => intro indeg queue x; simp [processDeps]
  | cons t rest ih =>
    intro indeg queue x
    simp only [processDeps]
    rw [ih]
    rw [List.count_cons]
    by_cases hx : x = t
    · subst hx
      simp only [if_pos rfl, beq_self_eq_true, if_pos]
      push_cast
      ring
    · have h2 : (t == x) = false := beq_eq_false_iff_ne.2 (Ne.symm hx)
      simp only [if_neg hx, h2]
      push_cast
      ring

theorem processDeps_snd (adj : List String) :
    ∀ indeg queue, ∃ news, (processDeps adj indeg queue).2 = queue ++ news ∧
      ∀ x, news.count x =
        if 1 ≤ indeg x ∧ indeg x ≤ (adj.count x : Int) then 1 else 0 := by
  induction adj with
  | nil =>
    intro indeg queue
    refine ⟨[], by simp [processDeps], ?_⟩
    intro x
    rw [List.count_nil]
    split
    next h => exfalso; rcases h with ⟨h1, h2⟩; simp at h2; omega
    next => rfl
  | cons t rest ih =>
    intro indeg queue
    by_cases ht : indeg t - 1 = 0
    · obtain ⟨news, hsplit, hcount⟩ :=
        ih (fun x => if x = t then indeg x - 1 else indeg x) (queue ++ [t])
      refine ⟨t :: news, ?_, ?_⟩
      · simp only [processDeps]
        rw [if_pos ht, hsplit, List.append_assoc]
        rfl
      · intro x
        simp only [List.count_cons, hcount x]
        by_cases hx : x = t
        · subst hx
          have h1 : indeg x = 1 := by omega
          simp only [if_pos rfl, beq_self_eq_true, if_true]
          split_ifs <;> push_cast at * <;> omega
        · have h2 : (t == x) = false := beq_eq_false_iff_ne.2 (Ne.symm hx)
          simp only [if_neg hx, h2, if_false]
          split_ifs <;> push_cast at * <;> omega
    · obtain ⟨news, hsplit, hcount⟩ :=
        ih (fun x => if x = t then indeg x - 1 else indeg x) queue
      refine ⟨news, ?_, ?_⟩
      · simp only [processDeps]
        rw [if_neg ht, hsplit]
      · intro x
        simp only [List.count_cons, hcount x]
        by_cases hx : x = t
        · subst hx
          simp only [if_pos rfl, beq_self_eq_true, if_true]
          split_ifs <;> push_cast at * <;> omega
        · have h2 : (t == x) = false := beq_eq_false_iff_ne.2 (Ne.symm hx)
          simp only [if_neg hx, h2, if_false]
          split_ifs <;> push_cast at * <;> omega

/-! Adjacency-list lemmas: `adjacency_list[d]` holds one entry per dependency
occurrence, so its multiset of entries counts dependents. -/

theorem mem_adjacencyOf (tasks : List Task) (d x : String)
    (hx : x ∈ adjacencyOf tasks d) : x ∈ names tasks := by
  unfold adjacencyOf at hx
  obtain ⟨t, ht, hx2⟩ := List.mem_flatMap.1 hx
  have := List.eq_of_mem_replicate hx2
  subst this
  exact List.mem_map_of_mem _ ht

theorem adjacencyOf_count_of_not_mem (tasks : List Task) (d x : String)
    (hx : x ∉ names tasks) : (adjacencyOf tasks d).count x = 0 :=
  List.count_eq_zero.2 (fun h => hx (mem_adjacencyOf tasks d x h))

theorem depsOf_cons (t : Task) (rest : List Task) (x : String) :
    depsOf (t :: rest) x =
      if t.name == x then t.dependencies else depsOf rest x := by
  unfold depsOf
  rw [List.find?_cons]
  by_cases h : t.name == x
  · rw [h]; simp
  · simp at h
    have h2 : (t.name == x) = false := beq_eq_false_iff_ne.2 h
    rw [h2]; simp [h2]

theorem adjacencyOf_count (tasks : List Task) (hN : (names tasks).Nodup)
    (d x : String) (hx : x ∈ names tasks) :
    (adjacencyOf tasks d).count x = (depsOf tasks x).count d := by
  induction tasks with
  | nil => cases hx
  | cons t rest ih =>
    have hN2 : (names rest).Nodup := (List.nodup_cons.1 hN).2
    have hadj : adjacencyOf (t :: rest) d =
        List.replicate (t.dependencies.count d) t.name ++ adjacencyOf rest d := by
      unfold adjacencyOf; rw [List.flatMap_cons]
    rw [hadj, List.count_append, depsOf_cons, List.count_replicate]
    by_cases h : t.name = x
    · have hb : (t.name == x) = true := beq_iff_eq.2 h
      rw [hb]
      have hxr : x ∉ names rest := h ▸ (List.nodup_cons.1 hN).1
      rw [adjacencyOf_count_of_not_mem rest d x hxr]
      simp
    · have hb : (t.name == x) = false := beq_eq_false_iff_ne.2 h
      rw [hb]
      have hxr : x ∈ names rest := by
        rcases List.mem_cons.1 hx with h1 | h1
        · exact absurd h1.symm h
        · exact h1
      rw [ih hN2 hxr]
      simp

/-! Placement-balance lemmas (claim C5). -/

theorem incFirst_length (m : Nat) (l : List Nat) : (incFirst m l).length = l.length := by
  induction l with
  | nil => rfl
  | cons c cs ih => by_cases h : c = m <;> simp [incFirst, h, ih]

theorem incFirst_sum (m : Nat) (l : List Nat) (h : m ∈ l) :
    (incFirst m l).sum = l.sum + 1 := by
  induction l with
  | nil => cases h
  | cons c cs ih =>
    by_cases hc : c = m
    · simp [incFirst, hc]; omega
    · have hm : m ∈ cs := by
        rcases List.mem_cons.1 h with h1 | h1
        · exact absurd h1.symm hc
        · exact h1
      simp [incFirst, hc, ih hm]; omega

theorem mem_incFirst (m : Nat) (l : List Nat) :
    ∀ c ∈ incFirst m l, c ∈ l ∨ c = m + 1 := by
  induction l with
  | nil => intro c hc; cases hc
  | cons a cs ih =>
    intro c hc
    by_cases ha : a = m
    · simp only [incFirst, if_pos ha] at hc
      rcases List.mem_cons.1 hc with h1 | h1
      · right; omega
      · left; exact List.mem_cons_of_mem _ h1
    · simp only [incFirst, if_neg ha] at hc
      rcases List.mem_cons.1 hc with h1 | h1
      · left; exact h1 ▸ List.mem_cons_self _ _
      · rcases ih c h1 with h2 | h2
        · left; exact List.mem_cons_of_mem _ h2
        · right; exact h2

theorem minCount_le_seed (cs : List Nat) : ∀ c, minCount c cs ≤ c := by
  induction cs with
  | nil => intro c; exact Nat.le_refl _
  | cons d cs ih =>
    intro c
    have hfold : minCount c (d :: cs) = minCount (min c d) cs := rfl
    rw [hfold]
    exact le_trans (ih (min c d)) (min_le_left _ _)

theorem minCount_le_mem (cs : List Nat) : ∀ c, ∀ x ∈ cs, minCount c cs ≤ x := by
  induction cs with
  | nil => intro c x hx; cases hx
  | cons d cs ih =>
    intro c x hx
    have hfold : minCount c (d :: cs) = minCount (min c d) cs := rfl
    rw [hfold]
    rcases List.mem_cons.1 hx with rfl | hx1
    · exact le_trans (minCount_le_seed cs (min c x)) (min_le_right _ _)
    · exact ih (min c d) x hx1

theorem minCount_le (c : Nat) (cs : List Nat) : ∀ x ∈ c :: cs, minCount c cs ≤ x := by
  intro x hx
  rcases List.mem_cons.1 hx with rfl | hx1
  · exact minCount_le_seed cs x
  · exact minCount_le_mem cs c x hx1

theorem minCount_mem (c : Nat) (cs : List Nat) : minCount c cs ∈ c :: cs := by
  induction cs generalizing c with
  | nil => simp [minCount]
  | cons d cs ih =>
    have hfold : minCount c (d :: cs) = minCount (min c d) cs := rfl
    rw [hfold]
    rcases List.mem_cons.1 (ih (min c d)) with h1 | h1
    · rcases le_total c d with hcd | hcd
      · rw [h1, min_eq_left hcd]; exact List.mem_cons_self _ _
      · rw [h1, min_eq_right hcd]
        exact List.mem_cons_of_mem _ (List.mem_cons_self _ _)
    · exact List.mem_cons_of_mem _ (List.mem_cons_of_mem _ h1)

theorem sum_ge_mul_length (l : List Nat) (m : Nat) (h : ∀ x ∈ l, m ≤ x) :
    m * l.length ≤ l.sum := by
  induction l with
  | nil => simp
  | cons a cs ih =>
    have h1 : m * cs.length ≤ cs.sum := ih (fun x hx => h x (List.mem_cons_of_mem _ hx))
    have h2 : m ≤ a := h a (List.mem_cons_self _ _)
    simp only [List.length_cons, List.sum_cons, Nat.mul_succ]
    omega

theorem admitted_spec (n : Nat) (hn : 0 < n) (k : Nat) :
    (admitted n k).length = n ∧ (admitted n k).sum = k ∧
      ∀ c ∈ admitted n k, c ≤ (k + n - 1) / n := by
  induction k with
  | zero =>
    refine ⟨by simp [admitted], by simp [admitted], ?_⟩
    intro c hc
    have hc0 : c = 0 := List.eq_of_mem_replicate (by simpa [admitted] using hc)
    rw [hc0]; exact Nat.zero_le _
  | succ k ih =>
    obtain ⟨hlen, hsum, hbound⟩ := ih
    have hstep : admitted n (k + 1) = admitOne (admitted n k) :=
      Function.iterate_succ_apply' admitOne k _
    obtain ⟨c, cs, hL⟩ : ∃ c cs, admitted n k = c :: cs := by
      cases hAk : admitted n k with
      | nil => rw [hAk] at hlen; simp at hlen; omega
      | cons c cs => exact ⟨c, cs, rfl⟩
    have hadm : admitOne (admitted n k) = incFirst (minCount c cs) (c :: cs) := by
      rw [hL]; rfl
    have hminmem : minCount c cs ∈ admitted n k := hL ▸ minCount_mem c cs
    have hminle : ∀ x ∈ admitted n k, minCount c cs ≤ x := hL ▸ minCount_le c cs
    have hmul : minCount c cs * n ≤ k := by
      have := sum_ge_mul_length (admitted n k) (minCount c cs) hminle
      rw [hlen, hsum] at this; exact this
    have hmindiv : minCount c cs ≤ k / n := (Nat.le_div_iff_mul_le hn).2 hmul
    have hceil : (k + 1 + n - 1) / n = k / n + 1 := by
      have h1 : k + 1 + n - 1 = k + n := by omega
      rw [h1, Nat.add_div_right k hn]
    refine ⟨?_, ?_, ?_⟩
    · rw [hstep, hadm, incFirst_length, ← hL, hlen]
    · rw [hstep, hadm, incFirst_sum _ _ (hL ▸ hminmem), ← hL, hsum]
    · intro x hx
      rw [hstep, hadm] at hx
      rcases mem_incFirst _ _ x hx with hmem | heq
      · have h1 : x ≤ (k + n - 1) / n := hbound x (hL ▸ hmem)
        have h2 : (k + n - 1) / n ≤ (k + 1 + n - 1) / n :=
          Nat.div_le_div_right (by omega)
        omega
      · rw [heq, hceil]; omega

/-- C5: in the placement-aware scheduler, the greedy least-loaded admission of
`spawn_task` (pick the first domain with least `active_count`, increment it)
keeps every domain at or below `ceil(M/N)` at every point while `M` mutually
independent ready tasks are admitted into `N` domains: after any `k ≤ M`
admissions starting from all-zero counts, every `active_count` is at most
`(M + N - 1) / N`. -/
theorem spawn_task_load_balance (n m k : Nat) (hn : 0 < n) (hk : k ≤ m) :
    ∀ c ∈ admitted n k, c ≤ (m + n - 1) / n := by
  intro c hc
  have h1 : c ≤ (k + n - 1) / n := (admitted_spec n hn k).2.2 c hc
  have h2 : (k + n - 1) / n ≤ (m + n - 1) / n := Nat.div_le_div_right (by omega)
  omega

/-- Witness for C5: two domains, three admissions, bound `ceil(3/2) = 2`
attained by the concrete run `[0,0] → [1,0] → [1,1] → [2,1]`. -/
theorem spawn_task_load_balance_witness :
    2 ∈ admitted 2 3 ∧ 2 ≤ (3 + 2 - 1) / 2 :=
  ⟨by decide, spawn_task_load_balance 2 3 3 (by decide) (by decide) 2 (by decide)⟩

/-- C10: `compute_expected_runtime` is not total at the public interface: the
empty task set passes `parse_tasks` (on an empty file) and
`validate_and_topological_sort` (with empty topological order), yet
`compute_expected_runtime` takes `max` of an empty value collection and
raises (`none`) instead of returning 0. -/
theorem compute_expected_runtime_empty_not_total :
    parse_tasks [] = Except.ok [] ∧
      (∃ adj indeg, validate_and_topological_sort [] = Except.ok ([], adj, indeg)) ∧
      compute_expected_runtime [] [] = none :=
  ⟨rfl, ⟨_, _, rfl⟩, rfl⟩

/-- C4 counterexample: the file `A,-5` parses, the resulting one-task graph
passes validation (execution would be permitted), yet its duration is
negative — the non-negativity invariant is not enforced anywhere. -/
theorem duration_nonneg_counterexample :
    ∃ ts, parse_tasks ["A,-5"] = Except.ok ts ∧
      (validate_and_topological_sort ts).isOk = true ∧ ∃ t ∈ ts, t.duration < 0 :=
  ⟨[⟨"A", -5, []⟩], rfl, rfl, ⟨"A", -5, []⟩, by decide, by decide⟩

theorem parseRecords_durations (lines : List String) :
    ∀ n acc ts, parseRecords lines n acc = Except.ok ts →
      (∀ t ∈ acc, 0 ≤ t.duration) →
      (∀ line ∈ lines, ∀ f, durationField line = some f →
        ∀ d, pyInt f = some d → 0 ≤ d) →
      ∀ t ∈ ts, 0 ≤ t.duration := by
  induction lines with
  | nil =>
    intro n acc ts h hacc _
    simp only [parseRecords] at h
    injection h with h
    exact h ▸ hacc
  | cons line rest ih =>
    intro n acc ts h hacc hf
    have hrest : ∀ l ∈ rest, ∀ f, durationField l = some f →
        ∀ d, pyInt f = some d → 0 ≤ d :=
      fun l hl => hf l (List.mem_cons_of_mem _ hl)
    have hline := hf line (List.mem_cons_self _ _)
    simp only [parseRecords] at h
    split at h
    · exact ih _ _ _ h hacc hrest
    · split at h
      next p0 p1 restParts hsplit =>
        split at h
        · exact absurd h (by simp)
        next dur hdur =>
          split at h
          · exact absurd h (by simp)
          · refine ih _ _ _ h ?_ hrest
            intro t ht
            rcases List.mem_append.1 ht with h1 | h1
            · exact hacc t h1
            · have hdf : durationField line = some (strip p1) := by
                simp [durationField, hsplit]
              rcases List.mem_singleton.1 h1 with rfl
              exact hline _ hdf dur hdur
      next hshape => exact absurd h (by simp)

/-- C4 amended: a graph that `parse_tasks` produces and
`validate_and_topological_sort` accepts has a finite integer duration for
every task (Python `int`, so finiteness is automatic), but non-negativity is
not checked anywhere; it holds exactly when the input declared it: if every
duration field of the file parses to a non-negative integer, then every task
of the accepted graph has a non-negative duration. -/
theorem durations_nonneg_of_nonneg_fields (lines : List String) (ts : List Task)
    (hok : parse_tasks lines = Except.ok ts)
    (hval : (validate_and_topological_sort ts).isOk = true)
    (hfields : ∀ line ∈ lines, ∀ f, durationField line = some f →
      ∀ d, pyInt f = some d → 0 ≤ d) :
    ∀ t ∈ ts, 0 ≤ t.duration :=
  parseRecords_durations lines 1 [] ts hok (by intro t ht; cases ht) hfields

/-- Witness for C4 amended: the two-line file `A,3` / `B,0,A` has
non-negative duration fields, parses, validates, and indeed yields only
non-negative durations. -/
theorem durations_nonneg_of_nonneg_fields_witness :
    Task.mk "B" 0 ["A"] ∈ [Task.mk "A" 3 [], Task.mk "B" 0 ["A"]] ∧
      0 ≤ (Task.mk "B" 0 ["A"]).duration :=
  ⟨by decide,
    durations_nonneg_of_nonneg_fields ["A,3", "B,0,A"]
      [Task.mk "A" 3 [], Task.mk "B" 0 ["A"]] rfl rfl (by decide)
      (Task.mk "B" 0 ["A"]) (by decide)⟩

/-! Kahn invariant development (claims C1, C2, C9). -/

theorem DepsDone_mono (tasks : List Task) (x : String) (v v2 : List String)
    (h : ∀ d, d ∈ v → d ∈ v2) (hd : DepsDone tasks x v) : DepsDone tasks x v2 :=
  fun d hdd => h d (hd d hdd)

theorem processDeps_complete (tasks : List Task) (hN : (names tasks).Nodup)
    (visited : List String) (c : String) (indeg : String → Int) (queue : List String)
    (hcnew : c ∉ visited)
    (hindeg : ∀ n ∈ names tasks, indeg n = (countNotIn (depsOf tasks n) visited : Int)) :
    (∀ n ∈ names tasks,
      (processDeps (adjacencyOf tasks c) indeg queue).1 n =
        (countNotIn (depsOf tasks n) (c :: visited) : Int)) ∧
    ∃ news, (processDeps (adjacencyOf tasks c) indeg queue).2 = queue ++ news ∧
      news.Nodup ∧
      ∀ x ∈ news, x ∈ names tasks ∧ DepsDone tasks x (c :: visited) ∧
        ¬ DepsDone tasks x visited := by
  obtain ⟨news, hsnd, hcount⟩ := processDeps_snd (adjacencyOf tasks c) indeg queue
  constructor
  · intro n hn
    rw [processDeps_fst, hindeg n hn, adjacencyOf_count tasks hN c n hn]
    have hc := countNotIn_cons (depsOf tasks n) c visited hcnew
    omega
  · refine ⟨news, hsnd, ?_, ?_⟩
    · rw [List.nodup_iff_count_le_one]
      intro x
      rw [hcount x]
      split <;> omega
    · intro x hx
      have hpos : 0 < news.count x := List.count_pos_iff.2 hx
      have h1 := hcount x
      have hcond : 1 ≤ indeg x ∧ indeg x ≤ ((adjacencyOf tasks c).count x : Int) := by
        by_contra hcon
        rw [if_neg hcon] at h1
        omega
      have hadjpos : 0 < (adjacencyOf tasks c).count x := by
        rcases hcond with ⟨ha, hb⟩
        by_contra hz
        have hz2 : (adjacencyOf tasks c).count x = 0 := by omega
        rw [hz2] at hb
        simp at hb
        omega
      have hxnames : x ∈ names tasks :=
        mem_adjacencyOf tasks c x (List.count_pos_iff.1 hadjpos)
      have he := hindeg x hxnames
      have hacount := adjacencyOf_count tasks hN c x hxnames
      have hccons := countNotIn_cons (depsOf tasks x) c visited hcnew
      refine ⟨hxnames, ?_, ?_⟩
      · have hz : countNotIn (depsOf tasks x) (c :: visited) = 0 := by
          rcases hcond with ⟨ha, hb⟩
          rw [hacount] at hb
          omega
        exact fun d hd => (countNotIn_eq_zero _ _).1 hz d hd
      · intro hdone
        have h0 : countNotIn (depsOf tasks x) visited = 0 :=
          (countNotIn_eq_zero _ _).2 hdone
        omega

theorem kahnLoop_spec (tasks : List Task) (hN : (names tasks).Nodup) :
    ∀ fuel queue topo indeg, KahnInv tasks queue topo indeg →
      (∀ n ∈ names tasks,
        (kahnLoop (adjacencyOf tasks) fuel queue topo indeg).2 n =
          (countNotIn (depsOf tasks n)
            (kahnLoop (adjacencyOf tasks) fuel queue topo indeg).1 : Int)) ∧
      (∀ i, (hi : i < (kahnLoop (adjacencyOf tasks) fuel queue topo indeg).1.length) →
        (kahnLoop (adjacencyOf tasks) fuel queue topo indeg).1.get ⟨i, hi⟩ ∈ names tasks ∧
          DepsDone tasks
            ((kahnLoop (adjacencyOf tasks) fuel queue topo indeg).1.get ⟨i, hi⟩)
            ((kahnLoop (adjacencyOf tasks) fuel queue topo indeg).1.take i)) ∧
      (kahnLoop (adjacencyOf tasks) fuel queue topo indeg).1.Nodup := by
  intro fuel
  induction fuel with
  | zero =>
    intro queue topo indeg hinv
    obtain ⟨hA, hB, hB2, hC⟩ := hinv
    simp only [kahnLoop]
    exact ⟨hA, hB2, (List.nodup_append.1 hC).2.1⟩
  | succ fuel ih =>
    intro queue topo indeg hinv
    obtain ⟨hA, hB, hB2, hC⟩ := hinv
    cases queue with
    | nil =>
      simp only [kahnLoop]
      exact ⟨hA, hB2, (List.nodup_append.1 hC).2.1⟩
    | cons c rest =>
      have hcprops := hB c (List.mem_cons_self _ _)
      have hcmem : c ∈ names tasks := hcprops.1
      have hcdeps : DepsDone tasks c topo := hcprops.2
      have hCc : (c :: (rest ++ topo)).Nodup := hC
      have hcnotrt : c ∉ rest ++ topo := (List.nodup_cons.1 hCc).1
      have hrt : (rest ++ topo).Nodup := (List.nodup_cons.1 hCc).2
      have hcnotopo : c ∉ topo := fun h => hcnotrt (List.mem_append_right _ h)
      have hcnotrest : c ∉ rest := fun h => hcnotrt (List.mem_append_left _ h)
      obtain ⟨hfst, news, hsnd, hnodupnews, hnews⟩ :=
        processDeps_complete tasks hN topo c indeg rest hcnotopo hA
      have hred : kahnLoop (adjacencyOf tasks) (fuel + 1) (c :: rest) topo indeg =
          kahnLoop (adjacencyOf tasks) fuel
            (processDeps (adjacencyOf tasks c) indeg rest).2 (topo ++ [c])
            (processDeps (adjacencyOf tasks c) indeg rest).1 := rfl
      rw [hred]
      apply ih
      have memC : ∀ y, y ∈ c :: topo ↔ y ∈ topo ++ [c] := by
        intro y; simp [List.mem_append, List.mem_cons, or_comm]
      have htopodone : ∀ x ∈ topo, DepsDone tasks x topo := by
        intro x hx
        obtain ⟨⟨i, hi⟩, hget⟩ := List.mem_iff_get.1 hx
        exact hget ▸ DepsDone_mono tasks _ _ _
          (fun d hd => List.take_subset i topo hd) (hB2 i hi).2
      have hfresh : ∀ x ∈ news, x ∉ rest ∧ x ∉ topo ∧ x ≠ c := by
        intro x hx
        have hnd : ¬ DepsDone tasks x topo := (hnews x hx).2.2
        refine ⟨fun h => hnd (hB x (List.mem_cons_of_mem _ h)).2,
          fun h => hnd (htopodone x h), fun h => hnd (h ▸ hcdeps)⟩
      refine ⟨?_, ?_, ?_, ?_⟩
      · intro n hn
        rw [hfst n hn]
        rw [countNotIn_congr (depsOf tasks n) (c :: topo) (topo ++ [c]) memC]
      · intro x hx
        rw [hsnd] at hx
        rcases List.mem_append.1 hx with h1 | h1
        · have := hB x (List.mem_cons_of_mem _ h1)
          exact ⟨this.1, DepsDone_mono tasks _ _ _
            (fun d hd => List.mem_append_left _ hd) this.2⟩
        · have := hnews x h1
          exact ⟨this.1, DepsDone_mono tasks _ _ _
            (fun d hd => (memC d).1 hd) this.2.1⟩
      · intro i hi
        by_cases hlt : i < topo.length
        · have hget : (topo ++ [c]).get ⟨i, hi⟩ = topo.get ⟨i, hlt⟩ := by
            rw [List.get_append i hlt]
          have htake : (topo ++ [c]).take i = topo.take i :=
            List.take_append_of_le_length (Nat.le_of_lt hlt)
          rw [hget, htake]
          exact hB2 i hlt
        · have hlen : i = topo.length := by
            have := hi
            simp only [List.length_append, List.length_singleton] at this
            omega
          subst hlen
          have hget : (topo ++ [c]).get ⟨topo.length, hi⟩ = c := by
            have := List.getElem_concat_length topo c
            simpa [List.get_eq_getElem] using this
          have htake : (topo ++ [c]).take topo.length = topo := List.take_left topo [c]
          rw [hget, htake]
          exact ⟨hcmem, hcdeps⟩
      · rw [hsnd]
        have hrest : rest.Nodup := (List.nodup_append.1 hrt).1
        have htopon : topo.Nodup := (List.nodup_append.1 hrt).2.1
        have hdisjrt : rest.Disjoint topo := (List.nodup_append.1 hrt).2.2
        refine List.nodup_append.2 ⟨?_, ?_, ?_⟩
        · refine List.nodup_append.2 ⟨hrest, hnodupnews, ?_⟩
          intro a ha hanews
          exact (hfresh a hanews).1 ha
        · refine List.nodup_append.2 ⟨htopon, List.nodup_singleton c, ?_⟩
          intro a ha hac
          rcases List.mem_singleton.1 hac with rfl
          exact hcnotopo ha
        · intro a ha hatc
          rcases List.mem_append.1 ha with h1 | h1
          · rcases List.mem_append.1 hatc with h2 | h2
            · exact hdisjrt h1 h2
            · rcases List.mem_singleton.1 h2 with rfl
              exact hcnotrest h1
          · rcases List.mem_append.1 hatc with h2 | h2
            · exact (hfresh a h1).2.1 h2
            · rcases List.mem_singleton.1 h2 with rfl
              exact (hfresh a h1).2.2 rfl

theorem kahnInv_init (tasks : List Task) (hN : (names tasks).Nodup) :
    KahnInv tasks ((names tasks).filter (fun n => indegOf tasks n == 0)) []
      (indegOf tasks) := by
  refine ⟨?_, ?_, ?_, ?_⟩
  · intro n hn
    rw [countNotIn_nil]
    rfl
  · intro x hx
    have hx2 := List.mem_filter.1 hx
    refine ⟨hx2.1, ?_⟩
    have h0 : indegOf tasks x = 0 := by
      have := hx2.2
      simpa using this
    have hlen : (depsOf tasks x).length = 0 := by
      unfold indegOf at h0
      exact_mod_cast h0
    have hnil : depsOf tasks x = [] := List.length_eq_zero.1 hlen
    intro d hd
    rw [hnil] at hd
    cases hd
  · intro i hi
    simp at hi
  · rw [List.append_nil]
    exact hN.filter _

theorem findUnknownDep_eq_none (tasks : List Task) :
    findUnknownDep tasks = none ↔
      ∀ t ∈ tasks, ∀ d ∈ t.dependencies, d ∈ names tasks := by
  unfold findUnknownDep
  rw [List.findSome?_eq_none_iff]
  constructor
  · intro h t ht d hd
    have h2 := h t ht
    cases hf : t.dependencies.find? (fun d => !(decide (d ∈ names tasks))) with
    | some e => rw [hf] at h2; simp at h2
    | none =>
      have h3 := List.find?_eq_none.1 hf d hd
      simpa using h3
  · intro h t ht
    have hf : t.dependencies.find? (fun d => !(decide (d ∈ names tasks))) = none := by
      rw [List.find?_eq_none]
      intro d hd
      simp [h t ht d hd]
    rw [hf]
    rfl

theorem validate_eq_none_case (tasks : List Task) (h : findUnknownDep tasks = none) :
    validate_and_topological_sort tasks =
      (if (kahnRun tasks).1.length = tasks.length then
        Except.ok ((kahnRun tasks).1, adjacencyOf tasks, (kahnRun tasks).2)
      else Except.error "Cycle detected in dependencies.") := by
  unfold validate_and_topological_sort
  rw [h]

theorem find?_name_eq (tasks : List Task) (hN : (names tasks).Nodup) (t : Task)
    (ht : t ∈ tasks) : tasks.find? (fun tk => tk.name == t.name) = some t := by
  induction tasks with
  | nil => cases ht
  | cons u rest ih =>
    rw [List.find?_cons]
    by_cases hu : (u.name == t.name) = true
    · rw [hu]
      have hun : u.name = t.name := beq_iff_eq.1 hu
      rcases List.mem_cons.1 ht with rfl | htr
      · rfl
      · exfalso
        have h1 : t.name ∈ names rest := List.mem_map_of_mem _ htr
        have h2 : u.name ∉ names rest := (List.nodup_cons.1 hN).1
        exact h2 (hun ▸ h1)
    · have hu2 : (u.name == t.name) = false := by
        cases h : (u.name == t.name) with
        | true => exact absurd h hu
        | false => rfl
      rw [hu2]
      have htr : t ∈ rest := by
        rcases List.mem_cons.1 ht with rfl | htr
        · exfalso; exact hu (beq_self_eq_true _)
        · exact htr
      exact ih (List.nodup_cons.1 hN).2 htr

theorem depsOf_eq_of_mem (tasks : List Task) (hN : (names tasks).Nodup) (t : Task)
    (ht : t ∈ tasks) : depsOf tasks t.name = t.dependencies := by
  unfold depsOf
  rw [find?_name_eq tasks hN t ht]

theorem depsOf_known (tasks : List Task)
    (hknown : ∀ t ∈ tasks, ∀ d ∈ t.dependencies, d ∈ names tasks) (n : String) :
    ∀ d ∈ depsOf tasks n, d ∈ names tasks := by
  intro d hd
  unfold depsOf at hd
  cases hf : tasks.find? (fun t => t.name == n) with
  | none => rw [hf] at hd; cases hd
  | some t =>
    rw [hf] at hd
    exact hknown t (List.mem_of_find?_eq_some hf) d hd

theorem validate_ok_props (tasks : List Task) (hN : (names tasks).Nodup)
    (topo : List String) (adj : String → List String) (indeg : String → Int)
    (hok : validate_and_topological_sort tasks = Except.ok (topo, adj, indeg)) :
    topo.Perm (names tasks) ∧
      (∀ i, (hi : i < topo.length) →
        ∀ d ∈ depsOf tasks (topo.get ⟨i, hi⟩), d ∈ topo.take i) ∧
      (∀ n ∈ names tasks, indeg n = (countNotIn (depsOf tasks n) topo : Int)) ∧
      (∀ t ∈ tasks, ∀ d ∈ t.dependencies, d ∈ names tasks) := by
  have hfud : findUnknownDep tasks = none := by
    cases hf : findUnknownDep tasks with
    | none => rfl
    | some p =>
      unfold validate_and_topological_sort at hok
      rw [hf] at hok
      simp at hok
  have hknown := (findUnknownDep_eq_none tasks).1 hfud
  rw [validate_eq_none_case tasks hfud] at hok
  by_cases hlen : (kahnRun tasks).1.length = tasks.length
  · rw [if_pos hlen] at hok
    injection hok with hok
    have h1 : (kahnRun tasks).1 = topo := congrArg Prod.fst hok
    have h3 : (kahnRun tasks).2 = indeg := congrArg (fun p => p.2.2) hok
    have hrun : kahnRun tasks =
        kahnLoop (adjacencyOf tasks) (2 * tasks.length + 1)
          ((names tasks).filter (fun n => indegOf tasks n == 0)) [] (indegOf tasks) := rfl
    obtain ⟨hA, hB2, hnodup⟩ :=
      kahnLoop_spec tasks hN (2 * tasks.length + 1)
        ((names tasks).filter (fun n => indegOf tasks n == 0)) [] (indegOf tasks)
        (kahnInv_init tasks hN)
    rw [← hrun] at hA hB2 hnodup
    rw [h1] at hB2 hnodup
    rw [h1, h3] at hA
    have hsub : topo ⊆ names tasks := by
      intro x hx
      obtain ⟨⟨i, hi⟩, hget⟩ := List.mem_iff_get.1 hx
      exact hget ▸ (hB2 i hi).1
    have hlen2 : topo.length = tasks.length := by rw [← h1]; exact hlen
    have hperm : topo.Perm (names tasks) := by
      apply (hnodup.subperm hsub).perm_of_length_le
      have hmap : (names tasks).length = tasks.length := List.length_map _ _
      omega
    exact ⟨hperm, fun i hi => (hB2 i hi).2, hA, hknown⟩
  · rw [if_neg hlen] at hok
    simp at hok

/-- C1: on every task set with distinct names on which
`validate_and_topological_sort` succeeds, the returned `topo_order` is a
permutation of all task names in which every task's every dependency occupies
a strictly earlier position (it lies in the prefix before the task). -/
theorem validate_topo_order_sound (tasks : List Task) (hN : (names tasks).Nodup)
    (topo : List String) (adj : String → List String) (indeg : String → Int)
    (hok : validate_and_topological_sort tasks = Except.ok (topo, adj, indeg)) :
    topo.Perm (names tasks) ∧
      ∀ i, (hi : i < topo.length) →
        ∀ d ∈ depsOf tasks (topo.get ⟨i, hi⟩), d ∈ topo.take i := by
  obtain ⟨hperm, hearl, _, _⟩ := validate_ok_props tasks hN topo adj indeg hok
  exact ⟨hperm, hearl⟩

/-- Witness for C1: the diamond-free set `A / B←A / C←A,B` validates with
order `[A, B, C]`, a permutation of its names. -/
theorem validate_topo_order_sound_witness :
    (["A", "B", "C"] : List String).Perm
      (names [⟨"A", 1, []⟩, ⟨"B", 2, ["A"]⟩, ⟨"C", 1, ["A", "B"]⟩]) :=
  (validate_topo_order_sound
    [⟨"A", 1, []⟩, ⟨"B", 2, ["A"]⟩, ⟨"C", 1, ["A", "B"]⟩]
    (by decide) ["A", "B", "C"] _ _ rfl).1

/-- C9: on success the returned `in_degree` mapping sends every task name to
0 — Kahn's algorithm decremented the same mapping in place down to zero while
producing the order, so it is no longer the original dependency count. -/
theorem validate_indeg_all_zero (tasks : List Task) (hN : (names tasks).Nodup)
    (topo : List String) (adj : String → List String) (indeg : String → Int)
    (hok : validate_and_topological_sort tasks = Except.ok (topo, adj, indeg)) :
    ∀ n ∈ names tasks, indeg n = 0 := by
  obtain ⟨hperm, _, hA, hknown⟩ := validate_ok_props tasks hN topo adj indeg hok
  intro n hn
  rw [hA n hn]
  have hz : countNotIn (depsOf tasks n) topo = 0 := by
    rw [countNotIn_eq_zero]
    intro d hd
    exact hperm.mem_iff.2 (depsOf_known tasks hknown n d hd)
  rw [hz]
  rfl

/-- Witness for C9: the two-task chain validates and its returned in-degree
table reads 0 at `B`, although `B` has one dependency. -/
theorem validate_indeg_all_zero_witness :
    "B" ∈ names [⟨"A", 1, []⟩, ⟨"B", 2, ["A"]⟩] ∧
      (kahnRun [⟨"A", 1, []⟩, ⟨"B", 2, ["A"]⟩]).2 "B" = 0 :=
  ⟨by decide,
    validate_indeg_all_zero [⟨"A", 1, []⟩, ⟨"B", 2, ["A"]⟩] (by decide)
      ["A", "B"] _ _ rfl "B" (by decide)⟩

/-! Cycle analysis (claim C2). -/

theorem indexOf_lt_of_mem_take (l : List String) :
    ∀ (i : Nat) (a : String), a ∈ l.take i → l.indexOf a < i := by
  induction l with
  | nil => intro i a h; simp at h
  | cons x xs ih =>
    intro i a h
    cases i with
    | zero => simp at h
    | succ j =>
      rw [List.take_succ_cons] at h
      by_cases hax : a = x
      · subst hax
        rw [List.indexOf_cons_self]
        omega
      · rcases List.mem_cons.1 h with h2 | h2
        · exact absurd h2 hax
        · rw [List.indexOf_cons_ne _ (Ne.symm hax)]
          have := ih j a h2
          omega

theorem depEdge_index_lt (tasks : List Task) (hN : (names tasks).Nodup)
    (topo : List String) (hperm : topo.Perm (names tasks))
    (hearl : ∀ i, (hi : i < topo.length) →
      ∀ d ∈ depsOf tasks (topo.get ⟨i, hi⟩), d ∈ topo.take i)
    (a b : String) (hedge : DepEdge tasks a b) :
    topo.indexOf a < topo.indexOf b := by
  obtain ⟨t, ht, hname, hadep⟩ := hedge
  have hbnames : b ∈ names tasks := hname ▸ List.mem_map_of_mem _ ht
  have hbtopo : b ∈ topo := hperm.mem_iff.2 hbnames
  have hib : topo.indexOf b < topo.length := List.indexOf_lt_length.2 hbtopo
  have hget : topo.get ⟨topo.indexOf b, hib⟩ = b := List.indexOf_get hib
  have hadeps : a ∈ depsOf tasks b := by
    rw [← hname, depsOf_eq_of_mem tasks hN t ht]
    exact hadep
  have hin : a ∈ topo.take (topo.indexOf b) := by
    refine hearl (topo.indexOf b) hib a ?_
    rw [hget]
    exact hadeps
  exact indexOf_lt_of_mem_take topo _ a hin

/-- Counterexample for C2 as frozen: the one-task set whose task `A` depends
on itself and on the undeclared name `Z` contains a cycle (`A → A`), yet
`validate_and_topological_sort` fails with the unknown-dependency error, not
the cycle-detected one — the unknown-dependency check runs first. -/
theorem validate_cycle_error_counterexample :
    Relation.TransGen (DepEdge [⟨"A", 1, ["A", "Z"]⟩]) "A" "A" ∧
      validate_and_topological_sort [⟨"A", 1, ["A", "Z"]⟩] =
        Except.error "Task \x27A\x27 depends on unknown \x27Z\x27." :=
  ⟨Relation.TransGen.single
    ⟨⟨"A", 1, ["A", "Z"]⟩, List.mem_singleton.2 rfl, rfl, by decide⟩, rfl⟩

/-- C2 amended: on every task set with distinct names in which every
dependency name refers to an existing task, if the dependency relation
contains a cycle then `validate_and_topological_sort` fails with exactly the
cycle-detected error (in particular never the unknown-dependency error). -/
theorem validate_cycle_error (tasks : List Task) (hN : (names tasks).Nodup)
    (hknown : ∀ t ∈ tasks, ∀ d ∈ t.dependencies, d ∈ names tasks)
    (a : String) (hcyc : Relation.TransGen (DepEdge tasks) a a) :
    validate_and_topological_sort tasks =
      Except.error "Cycle detected in dependencies." := by
  have hfud : findUnknownDep tasks = none := (findUnknownDep_eq_none tasks).2 hknown
  rw [validate_eq_none_case tasks hfud]
  by_cases hlen : (kahnRun tasks).1.length = tasks.length
  · exfalso
    have hok : validate_and_topological_sort tasks =
        Except.ok ((kahnRun tasks).1, adjacencyOf tasks, (kahnRun tasks).2) := by
      rw [validate_eq_none_case tasks hfud, if_pos hlen]
    obtain ⟨hperm, hearl, _, _⟩ :=
      validate_ok_props tasks hN (kahnRun tasks).1 (adjacencyOf tasks)
        (kahnRun tasks).2 hok
    have hmono : ∀ x y, Relation.TransGen (DepEdge tasks) x y →
        (kahnRun tasks).1.indexOf x < (kahnRun tasks).1.indexOf y := by
      intro x y h
      induction h with
      | single h1 => exact depEdge_index_lt tasks hN _ hperm hearl _ _ h1
      | tail h1 h2 ih =>
        exact lt_trans ih (depEdge_index_lt tasks hN _ hperm hearl _ _ h2)
    exact lt_irrefl _ (hmono a a hcyc)
  · rw [if_neg hlen]

/-- Witness for C2 amended: the two-cycle `A ↔ B` (all dependencies known)
is rejected with the cycle error. -/
theorem validate_cycle_error_witness :
    validate_and_topological_sort [⟨"A", 1, ["B"]⟩, ⟨"B", 1, ["A"]⟩] =
      Except.error "Cycle detected in dependencies." :=
  validate_cycle_error [⟨"A", 1, ["B"]⟩, ⟨"B", 1, ["A"]⟩] (by decide) (by decide)
    "A" (Relation.TransGen.head
      ⟨⟨"B", 1, ["A"]⟩, by decide, rfl, by decide⟩
      (Relation.TransGen.single ⟨⟨"A", 1, ["B"]⟩, by decide, rfl, by decide⟩))

/-! Scheduler invariant development (claim C6). -/

theorem schedInv_init (tasks : List Task) (hN : (names tasks).Nodup) :
    SchedInv tasks ((names tasks).filter (fun n => indegOf tasks n == 0)) [] []
      (fun x => indegOf tasks x) := by
  refine ⟨?_, ?_, ?_, ?_, ?_⟩
  · intro n hn
    rw [countNotIn_nil]
    rfl
  · intro x hx
    have hx2 := List.mem_filter.1 hx
    refine ⟨hx2.1, ?_⟩
    have h0 : indegOf tasks x = 0 := by
      have := hx2.2
      simpa using this
    have hlen : (depsOf tasks x).length = 0 := by
      unfold indegOf at h0
      exact_mod_cast h0
    have hnil : depsOf tasks x = [] := List.length_eq_zero.1 hlen
    intro d hd
    rw [hnil] at hd
    cases hd
  · intro x hx; cases hx
  · intro x hx; cases hx
  · rw [List.append_nil, List.append_nil]
    exact hN.filter _

theorem schedInv_submit (tasks : List Task) (t : String)
    (rest running finished : List String) (indeg : String → Int)
    (hinv : SchedInv tasks (t :: rest) running finished indeg) :
    SchedInv tasks rest (t :: running) finished indeg := by
  obtain ⟨hA, hB, hR, hF, hC⟩ := hinv
  refine ⟨hA, ?_, ?_, hF, ?_⟩
  · intro x hx
    exact hB x (List.mem_cons_of_mem _ hx)
  · intro x hx
    rcases List.mem_cons.1 hx with rfl | hx2
    · exact hB x (List.mem_cons_self _ _)
    · exact hR x hx2
  · have hperm : (rest ++ (t :: running) ++ finished).Perm
        ((t :: rest) ++ running ++ finished) :=
      List.Perm.append List.perm_middle (List.Perm.refl finished)
    exact hperm.nodup_iff.2 hC

theorem schedInv_complete (tasks : List Task) (hN : (names tasks).Nodup)
    (t : String) (queue running finished : List String) (indeg : String → Int)
    (hmem : t ∈ running)
    (hinv : SchedInv tasks queue running finished indeg) :
    SchedInv tasks (processDeps (adjacencyOf tasks t) indeg queue).2
      (running.erase t) (t :: finished)
      (processDeps (adjacencyOf tasks t) indeg queue).1 := by
  obtain ⟨hA, hB, hR, hF, hC⟩ := hinv
  have htnames : t ∈ names tasks := (hR t hmem).1
  have htdeps : DepsDone tasks t finished := (hR t hmem).2
  have hd1 : List.Disjoint (queue ++ running) finished :=
    List.disjoint_of_nodup_append hC
  have hqr : (queue ++ running).Nodup := (List.nodup_append.1 hC).1
  have hfin : finished.Nodup := (List.nodup_append.1 hC).2.1
  have htnotfin : t ∉ finished := hd1 (List.mem_append_right _ hmem)
  obtain ⟨hfst, news, hsnd, hnodupnews, hnews⟩ :=
    processDeps_complete tasks hN finished t indeg queue htnotfin hA
  have hfreshQ : ∀ x ∈ news, x ∉ queue := fun x hx h =>
    (hnews x hx).2.2 (hB x h).2
  have hfreshR : ∀ x ∈ news, x ∉ running := fun x hx h =>
    (hnews x hx).2.2 (hR x h).2
  have hfreshF : ∀ x ∈ news, x ∉ finished := fun x hx h =>
    (hnews x hx).2.2 (hF x h).2
  have hfreshT : ∀ x ∈ news, x ≠ t := fun x hx h =>
    (hnews x hx).2.2 (h ▸ htdeps)
  refine ⟨hfst, ?_, ?_, ?_, ?_⟩
  · intro x hx
    rw [hsnd] at hx
    rcases List.mem_append.1 hx with h1 | h1
    · have h2 := hB x h1
      exact ⟨h2.1, DepsDone_mono tasks x _ _
        (fun d hd => List.mem_cons_of_mem _ hd) h2.2⟩
    · have h2 := hnews x h1
      exact ⟨h2.1, h2.2.1⟩
  · intro x hx
    have hx2 : x ∈ running := List.mem_of_mem_erase hx
    have h2 := hR x hx2
    exact ⟨h2.1, DepsDone_mono tasks x _ _
      (fun d hd => List.mem_cons_of_mem _ hd) h2.2⟩
  · intro x hx
    rcases List.mem_cons.1 hx with rfl | h1
    · exact ⟨htnames, DepsDone_mono tasks x _ _
        (fun d hd => List.mem_cons_of_mem _ hd) htdeps⟩
    · have h2 := hF x h1
      exact ⟨h2.1, DepsDone_mono tasks x _ _
        (fun d hd => List.mem_cons_of_mem _ hd) h2.2⟩
  · rw [hsnd]
    have hqueueN : queue.Nodup := (List.nodup_append.1 hqr).1
    have hrunN : running.Nodup := (List.nodup_append.1 hqr).2.1
    have hdisjQR : queue.Disjoint running := (List.nodup_append.1 hqr).2.2
    have heraseSub : ∀ x ∈ running.erase t, x ∈ running :=
      fun x hx => List.mem_of_mem_erase hx
    have htnotin_erase : t ∉ running.erase t := hrunN.not_mem_erase
    refine List.nodup_append.2 ⟨?_, ?_, ?_⟩
    · refine List.nodup_append.2 ⟨?_, hrunN.erase t, ?_⟩
      · exact List.nodup_append.2
          ⟨hqueueN, hnodupnews, fun a ha hanews => hfreshQ a hanews ha⟩
      · intro a ha he
        have har : a ∈ running := heraseSub a he
        rcases List.mem_append.1 ha with h1 | h1
        · exact hdisjQR h1 har
        · exact hfreshR a h1 har
    · exact List.nodup_cons.2 ⟨htnotfin, hfin⟩
    · intro a ha htf
      rcases List.mem_cons.1 htf with rfl | h2
      · rcases List.mem_append.1 ha with h1 | h1
        · rcases List.mem_append.1 h1 with h4 | h4
          · exact hdisjQR h4 hmem
          · exact hfreshT a h4 rfl
        · exact htnotin_erase h1
      · rcases List.mem_append.1 ha with h1 | h1
        · rcases List.mem_append.1 h1 with h4 | h4
          · exact hd1 (List.mem_append_left _ h4) h2
          · exact hfreshF a h4 h2
        · exact hd1 (List.mem_append_right _ (heraseSub a h1)) h2

theorem reachable_inv (tasks : List Task) (hN : (names tasks).Nodup)
    (s : SchedState) (hs : Reachable tasks s) :
    SchedInv tasks s.queue s.running s.finished s.indeg := by
  induction hs with
  | refl => exact schedInv_init tasks hN
  | tail h1 hstep ih =>
    cases hstep with
    | submit t rest running finished indeg =>
      exact schedInv_submit tasks t rest running finished indeg ih
    | complete t queue running finished indeg hmem =>
      exact schedInv_complete tasks hN t queue running finished indeg hmem ih

/-- C6: in the readiness mechanics shared by `run_tasks_with_threads` and
`run_tasks_multiprocessing`, every reachable dispatcher state satisfies: a
task sits in the ready queue only with in-degree 0, and every task that has
been submitted/spawned (running or already finished) has every one of its
dependencies in the finished pool — no task ever starts before all its
dependencies have signaled completion. -/
theorem scheduler_respects_dependencies (tasks : List Task)
    (hN : (names tasks).Nodup) (s : SchedState) (hs : Reachable tasks s) :
    (∀ x ∈ s.queue, s.indeg x = 0) ∧
      (∀ x, x ∈ s.running ∨ x ∈ s.finished →
        ∀ d ∈ depsOf tasks x, d ∈ s.finished) := by
  obtain ⟨hA, hB, hR, hF, hC⟩ := reachable_inv tasks hN s hs
  constructor
  · intro x hx
    have h2 := hB x hx
    rw [hA x h2.1]
    have hz : countNotIn (depsOf tasks x) s.finished = 0 :=
      (countNotIn_eq_zero _ _).2 h2.2
    rw [hz]
    rfl
  · intro x hx
    rcases hx with h | h
    · exact (hR x h).2
    · exact (hF x h).2

/-- Witness for C6: for the chain `A → B`, after the run submit A, complete A,
submit B, the reached state has `B` running with its dependency `A` finished. -/
theorem scheduler_respects_dependencies_witness :
    "A" ∈ depsOf [⟨"A", 1, []⟩, ⟨"B", 2, ["A"]⟩] "B" ∧
      ("A" : String) ∈ (["A"] : List String) := by
  refine ⟨by decide, ?_⟩
  have h1 : SchedStep [⟨"A", 1, []⟩, ⟨"B", 2, ["A"]⟩]
      (initState [⟨"A", 1, []⟩, ⟨"B", 2, ["A"]⟩])
      ⟨[], ["A"], [], fun x => indegOf [⟨"A", 1, []⟩, ⟨"B", 2, ["A"]⟩] x⟩ :=
    SchedStep.submit "A" [] [] [] _
  have h2 : SchedStep [⟨"A", 1, []⟩, ⟨"B", 2, ["A"]⟩]
      ⟨[], ["A"], [], fun x => indegOf [⟨"A", 1, []⟩, ⟨"B", 2, ["A"]⟩] x⟩
      ⟨["B"], [], ["A"],
        (processDeps (adjacencyOf [⟨"A", 1, []⟩, ⟨"B", 2, ["A"]⟩] "A")
          (fun x => indegOf [⟨"A", 1, []⟩, ⟨"B", 2, ["A"]⟩] x) []).1⟩ :=
    SchedStep.complete "A" [] ["A"] []
      (fun x => indegOf [⟨"A", 1, []⟩, ⟨"B", 2, ["A"]⟩] x) (by decide)
  have h3 : SchedStep [⟨"A", 1, []⟩, ⟨"B", 2, ["A"]⟩]
      ⟨["B"], [], ["A"],
        (processDeps (adjacencyOf [⟨"A", 1, []⟩, ⟨"B", 2, ["A"]⟩] "A")
          (fun x => indegOf [⟨"A", 1, []⟩, ⟨"B", 2, ["A"]⟩] x) []).1⟩
      ⟨[], ["B"], ["A"],
        (processDeps (adjacencyOf [⟨"A", 1, []⟩, ⟨"B", 2, ["A"]⟩] "A")
          (fun x => indegOf [⟨"A", 1, []⟩, ⟨"B", 2, ["A"]⟩] x) []).1⟩ :=
    SchedStep.submit "B" [] [] ["A"] _
  have hreach : Reachable [⟨"A", 1, []⟩, ⟨"B", 2, ["A"]⟩]
      ⟨[], ["B"], ["A"],
        (processDeps (adjacencyOf [⟨"A", 1, []⟩, ⟨"B", 2, ["A"]⟩] "A")
          (fun x => indegOf [⟨"A", 1, []⟩, ⟨"B", 2, ["A"]⟩] x) []).1⟩ :=
    Relation.ReflTransGen.tail
      (Relation.ReflTransGen.tail
        (Relation.ReflTransGen.tail Relation.ReflTransGen.refl h1) h2) h3
  exact (scheduler_respects_dependencies [⟨"A", 1, []⟩, ⟨"B", 2, ["A"]⟩]
    (by decide) _ hreach).2 "B" (Or.inl (by decide)) "A" (by decide)

/-! Association-list and fold lemmas for the earliest-finish computation
(claims C3, C7). -/

theorem lookup_of_mem_keys (ef : List (String × Int)) (x : String)
    (hx : x ∈ ef.map Prod.fst) : ∃ v, List.lookup x ef = some v := by
  induction ef with
  | nil => simp at hx
  | cons p rest ih =>
    rw [show p = (p.1, p.2) from rfl, List.lookup_cons]
    by_cases hpx : (x == p.1) = true
    · rw [hpx]
      exact ⟨p.2, rfl⟩
    · have h2 : (x == p.1) = false := by
        cases h : x == p.1 with
        | true => exact absurd h hpx
        | false => rfl
      rw [h2]
      apply ih
      rcases List.mem_cons.1 hx with h3 | h3
      · exfalso
        exact hpx (beq_iff_eq.2 h3)
      · exact h3

theorem lookup_mem (ef : List (String × Int)) (x : String) (v : Int)
    (h : List.lookup x ef = some v) : (x, v) ∈ ef := by
  induction ef with
  | nil => simp at h
  | cons p rest ih =>
    rw [show p = (p.1, p.2) from rfl, List.lookup_cons] at h
    cases hb : x == p.1 with
    | true =>
      rw [hb] at h
      injection h with h
      have hx : x = p.1 := beq_iff_eq.1 hb
      rw [hx, ← h]
      exact List.mem_cons_self _ _
    | false =>
      rw [hb] at h
      exact List.mem_cons_of_mem _ (ih h)

theorem lookup_append_left (l1 l2 : List (String × Int)) (x : String)
    (hx : x ∈ l1.map Prod.fst) :
    List.lookup x (l1 ++ l2) = List.lookup x l1 := by
  induction l1 with
  | nil => simp at hx
  | cons p rest ih =>
    rw [List.cons_append, show p = (p.1, p.2) from rfl,
      List.lookup_cons, List.lookup_cons]
    cases hb : x == p.1 with
    | true => rfl
    | false =>
      apply ih
      rcases List.mem_cons.1 hx with h3 | h3
      · exfalso
        have h4 : (x == p.1) = true := beq_iff_eq.2 h3
        rw [h4] at hb
        cases hb
      · exact h3

theorem lookup_of_mem_nodup (ef : List (String × Int)) (x : String) (v : Int)
    (hnd : (ef.map Prod.fst).Nodup) (h : (x, v) ∈ ef) :
    List.lookup x ef = some v := by
  induction ef with
  | nil => cases h
  | cons p rest ih =>
    rw [show p = (p.1, p.2) from rfl, List.lookup_cons]
    rcases List.mem_cons.1 h with h1 | h1
    · have hx : x = p.1 := congrArg Prod.fst h1
      have hv : v = p.2 := congrArg Prod.snd h1
      rw [beq_iff_eq.2 hx, hv]
    · have hxr : x ∈ rest.map Prod.fst := List.mem_map.2 ⟨(x, v), h1, rfl⟩
      have hne : (x == p.1) = false := by
        apply beq_eq_false_iff_ne.2
        intro hx
        have hp1 : p.1 ∈ rest.map Prod.fst := hx ▸ hxr
        exact (List.nodup_cons.1 hnd).1 hp1
      rw [hne]
      exact ih (List.nodup_cons.1 hnd).2 h1

theorem foldl_max_pull (l : List Int) : ∀ a b : Int,
    l.foldl max (max a b) = max a (l.foldl max b) := by
  induction l with
  | nil => intro a b; rfl
  | cons x xs ih =>
    intro a b
    show xs.foldl max (max (max a b) x) = max a (xs.foldl max (max b x))
    rw [max_assoc, ih]

theorem foldl_max_le (l : List Int) : ∀ (a x : Int), x ∈ a :: l →
    x ≤ l.foldl max a := by
  induction l with
  | nil =>
    intro a x hx
    rcases List.mem_singleton.1 hx with rfl
    exact le_refl _
  | cons b bs ih =>
    intro a x hx
    show x ≤ bs.foldl max (max a b)
    rcases List.mem_cons.1 hx with rfl | h1
    · exact le_trans (le_max_left x b)
        (ih (max x b) _ (List.mem_cons_self _ _))
    · rcases List.mem_cons.1 h1 with rfl | h2
      · exact le_trans (le_max_right a x)
          (ih (max a x) _ (List.mem_cons_self _ _))
      · exact ih (max a b) x (List.mem_cons_of_mem _ h2)

theorem foldl_max_mem (l : List Int) : ∀ a : Int, l.foldl max a ∈ a :: l := by
  induction l with
  | nil => intro a; simp
  | cons b bs ih =>
    intro a
    show bs.foldl max (max a b) ∈ a :: b :: bs
    rcases List.mem_cons.1 (ih (max a b)) with h1 | h1
    · rcases max_choice a b with h2 | h2
      · rw [h1, h2]; exact List.mem_cons_self _ _
      · rw [h1, h2]
        exact List.mem_cons_of_mem _ (List.mem_cons_self _ _)
    · exact List.mem_cons_of_mem _ (List.mem_cons_of_mem _ h1)

theorem foldl_max_mono (l1 l2 : List Int) (hrel : List.Forall₂ (· ≤ ·) l1 l2) :
    ∀ a b : Int, a ≤ b → l1.foldl max a ≤ l2.foldl max b := by
  induction hrel with
  | nil => intro a b hab; exact hab
  | cons hxy hrest ih =>
    intro a b hab
    exact ih _ _ (max_le_max hab hxy)

theorem maxDepEF_eq (ef : List (String × Int)) :
    ∀ (ds : List String) (d : String),
      (∀ x ∈ d :: ds, x ∈ ef.map Prod.fst) →
      maxDepEF ef (d :: ds) =
        some ((ds.map (efLookup ef)).foldl max (efLookup ef d)) := by
  intro ds
  induction ds with
  | nil =>
    intro d hall
    obtain ⟨v, hv⟩ := lookup_of_mem_keys ef d (hall d (List.mem_cons_self _ _))
    show List.lookup d ef = _
    rw [hv]
    simp [efLookup, hv]
  | cons e rest ih =>
    intro d hall
    obtain ⟨v, hv⟩ := lookup_of_mem_keys ef d (hall d (List.mem_cons_self _ _))
    have hall2 : ∀ x ∈ e :: rest, x ∈ ef.map Prod.fst :=
      fun x hx => hall x (List.mem_cons_of_mem _ hx)
    have hih := ih e hall2
    have hd : efLookup ef d = v := by simp [efLookup, hv]
    show (match List.lookup d ef, maxDepEF ef (e :: rest) with
      | some v, some m => some (max v m)
      | _, _ => none) = _
    rw [hv, hih, List.map_cons, List.foldl_cons, foldl_max_pull, hd]

theorem name_inj (tasks : List Task) (hN : (names tasks).Nodup)
    (t1 t2 : Task) (h1 : t1 ∈ tasks) (h2 : t2 ∈ tasks)
    (hname : t1.name = t2.name) : t1 = t2 := by
  have e1 := find?_name_eq tasks hN t1 h1
  have e2 := find?_name_eq tasks hN t2 h2
  rw [hname] at e1
  rw [e1] at e2
  injection e2

theorem computeEF_spec (tasks : List Task) (hN : (names tasks).Nodup) :
    ∀ (topo : List String) (acc : List (String × Int)),
      (acc.map Prod.fst ++ topo).Nodup →
      (∀ i, (hi : i < topo.length) → topo.get ⟨i, hi⟩ ∈ names tasks ∧
        ∀ d ∈ depsOf tasks (topo.get ⟨i, hi⟩), d ∈ acc.map Prod.fst ++ topo.take i) →
      ∃ L, computeEF tasks topo acc = some L ∧
        L.map Prod.fst = acc.map Prod.fst ++ topo ∧
        acc <+: L ∧
        ∀ p ∈ L, p ∈ acc ∨
          ∃ t ∈ tasks, t.name = p.1 ∧
            p.2 = (match t.dependencies with
              | [] => (0 : Int)
              | d :: ds => (ds.map (efLookup L)).foldl max (efLookup L d)) + t.duration := by
  intro topo
  induction topo with
  | nil =>
    intro acc hkeys htopo
    exact ⟨acc, rfl, by simp, List.prefix_refl acc, fun p hp => Or.inl hp⟩
  | cons tn rest ih =>
    intro acc hkeys htopo
    have h0 := htopo 0 (by simp)
    have htn_names : tn ∈ names tasks := h0.1
    have hdeps0 : ∀ d ∈ depsOf tasks tn, d ∈ acc.map Prod.fst := by
      intro d hd
      have h1 := h0.2 d hd
      simpa using h1
    obtain ⟨t, htmem, htname⟩ := List.mem_map.1 htn_names
    have hfind : tasks.find? (fun tk => tk.name == tn) = some t := by
      rw [← htname]
      exact find?_name_eq tasks hN t htmem
    have hdepst : depsOf tasks tn = t.dependencies := by
      rw [← htname, depsOf_eq_of_mem tasks hN t htmem]
    have hkeys2 : ∀ v : Int, ((acc ++ [(tn, v)]).map Prod.fst ++ rest).Nodup := by
      intro v
      rw [List.map_append]
      show ((acc.map Prod.fst ++ [tn]) ++ rest).Nodup
      rw [← List.append_cons]
      exact hkeys
    have htopo2 : ∀ v : Int, ∀ i, (hi : i < rest.length) →
        rest.get ⟨i, hi⟩ ∈ names tasks ∧
        ∀ d ∈ depsOf tasks (rest.get ⟨i, hi⟩),
          d ∈ (acc ++ [(tn, v)]).map Prod.fst ++ rest.take i := by
      intro v i hi
      have hi2 : i + 1 < (tn :: rest).length := by simp; omega
      have h1 := htopo (i + 1) hi2
      refine ⟨h1.1, ?_⟩
      intro d hd
      have h2 := h1.2 d hd
      rw [List.map_append]
      show d ∈ (acc.map Prod.fst ++ [tn]) ++ rest.take i
      rw [← List.append_cons]
      exact h2
    cases hdt : t.dependencies with
    | nil =>
      have hstep : computeEF tasks (tn :: rest) acc =
          computeEF tasks rest (acc ++ [(tn, t.duration)]) := by
        simp only [computeEF, hfind, hdt]
      obtain ⟨L, hL, hLkeys, hLpre, hLrec⟩ :=
        ih (acc ++ [(tn, t.duration)]) (hkeys2 t.duration) (htopo2 t.duration)
      refine ⟨L, by rw [hstep]; exact hL, ?_, ?_, ?_⟩
      · rw [hLkeys, List.map_append]
        show (acc.map Prod.fst ++ [tn]) ++ rest = _
        rw [← List.append_cons]
      · exact (List.prefix_append acc [(tn, t.duration)]).trans hLpre
      · intro p hp
        rcases hLrec p hp with h1 | h1
        · rcases List.mem_append.1 h1 with h2 | h2
          · exact Or.inl h2
          · rcases List.mem_singleton.1 h2 with rfl
            refine Or.inr ⟨t, htmem, htname, ?_⟩
            simp only [hdt]
            omega
        · exact Or.inr h1
    | cons d ds =>
      have hall : ∀ x ∈ d :: ds, x ∈ acc.map Prod.fst := by
        intro x hx
        apply hdeps0
        rw [hdepst, hdt]
        exact hx
      have hmax := maxDepEF_eq acc ds d hall
      have hstep : computeEF tasks (tn :: rest) acc =
          computeEF tasks rest
            (acc ++ [(tn,
              (ds.map (efLookup acc)).foldl max (efLookup acc d) + t.duration)]) := by
        simp only [computeEF, hfind, hdt, hmax]
      obtain ⟨L, hL, hLkeys, hLpre, hLrec⟩ :=
        ih (acc ++ [(tn, (ds.map (efLookup acc)).foldl max (efLookup acc d) + t.duration)])
          (hkeys2 _) (htopo2 _)
      have hstable : ∀ x ∈ acc.map Prod.fst, efLookup L x = efLookup acc x := by
        intro x hx
        obtain ⟨tail, htail⟩ := (List.prefix_append acc _).trans hLpre
        simp only [efLookup]
        rw [← htail, lookup_append_left acc tail x hx]
      refine ⟨L, by rw [hstep]; exact hL, ?_, ?_, ?_⟩
      · rw [hLkeys, List.map_append]
        show (acc.map Prod.fst ++ [tn]) ++ rest = _
        rw [← List.append_cons]
      · exact (List.prefix_append acc _).trans hLpre
      · intro p hp
        rcases hLrec p hp with h1 | h1
        · rcases List.mem_append.1 h1 with h2 | h2
          · exact Or.inl h2
          · rcases List.mem_singleton.1 h2 with rfl
            refine Or.inr ⟨t, htmem, htname, ?_⟩
            simp only [hdt]
            have hmapeq : ds.map (efLookup L) = ds.map (efLookup acc) :=
              List.map_congr_left
                (fun x hx => hstable x (hall x (List.mem_cons_of_mem _ hx)))
            have hdeq : efLookup L d = efLookup acc d :=
              hstable d (hall d (List.mem_cons_self _ _))
            rw [hmapeq, hdeq]
        · exact Or.inr h1

/-- C3: for every non-empty task set with distinct names and a valid
topological order (a permutation of the names placing every dependency
earlier), `compute_expected_runtime` returns the critical-path length: there
is an earliest-finish assignment in which every task finishes at its own
duration plus the maximum earliest finish of its dependencies (0 when it has
none), and the returned value is the maximum earliest finish over all
tasks. -/
theorem compute_expected_runtime_critical_path (tasks : List Task)
    (hN : (names tasks).Nodup) (topo : List String)
    (hperm : topo.Perm (names tasks))
    (hearl : ∀ i, (hi : i < topo.length) →
      ∀ d ∈ depsOf tasks (topo.get ⟨i, hi⟩), d ∈ topo.take i)
    (hne : tasks ≠ []) :
    ∃ ef : String → Int,
      (∀ t ∈ tasks, ef t.name = t.duration + (match t.dependencies with
        | [] => (0 : Int)
        | d :: ds => (ds.map ef).foldl max (ef d))) ∧
      ∃ v, compute_expected_runtime tasks topo = some v ∧
        (∀ t ∈ tasks, ef t.name ≤ v) ∧ ∃ t ∈ tasks, ef t.name = v := by
  have htopoN : topo.Nodup := (hperm.nodup_iff).2 hN
  obtain ⟨L, hL, hLkeys, hpre, hLrec⟩ :=
    computeEF_spec tasks hN topo [] (by simpa using htopoN)
      (by
        intro i hi
        refine ⟨hperm.mem_iff.1 (topo.get_mem i hi), ?_⟩
        intro d hd
        have h1 := hearl i hi d hd
        simpa using h1)
  have hLkeys2 : L.map Prod.fst = topo := by simpa using hLkeys
  have hLkeysN : (L.map Prod.fst).Nodup := by rw [hLkeys2]; exact htopoN
  have hef : ∀ t ∈ tasks, ∃ v, List.lookup t.name L = some v ∧ efLookup L t.name = v := by
    intro t ht
    have htn : t.name ∈ topo := hperm.mem_iff.2 (List.mem_map_of_mem _ ht)
    have htn2 : t.name ∈ L.map Prod.fst := by rw [hLkeys2]; exact htn
    obtain ⟨v, hv⟩ := lookup_of_mem_keys L t.name htn2
    exact ⟨v, hv, by simp [efLookup, hv]⟩
  refine ⟨efLookup L, ?_, ?_⟩
  · intro t ht
    obtain ⟨v, hv, hev⟩ := hef t ht
    have hmemL : (t.name, v) ∈ L := lookup_mem L _ _ hv
    rcases hLrec _ hmemL with h1 | ⟨t2, ht2, hname2, hval⟩
    · cases h1
    · have ht2t : t2 = t := name_inj tasks hN t2 t ht2 ht hname2
      subst ht2t
      have hval2 : v = (match t2.dependencies with
        | [] => (0 : Int)
        | d :: ds => (ds.map (efLookup L)).foldl max (efLookup L d)) + t2.duration := hval
      rw [hev, hval2]
      exact add_comm _ _
  · have htopone : topo ≠ [] := by
      intro h
      apply hne
      have hlen : (names tasks).length = 0 := by
        rw [← hperm.length_eq, h]
        rfl
      have : tasks.length = 0 := by
        have := List.length_map tasks Task.name
        rw [show (names tasks).length = (tasks.map Task.name).length from rfl] at hlen
        rw [this] at hlen
        exact hlen
      exact List.length_eq_zero.1 this
    have hLne : L ≠ [] := by
      intro h
      apply htopone
      rw [← hLkeys2, h]
      rfl
    cases hLsnd : L.map Prod.snd with
    | nil =>
      exfalso
      exact hLne (List.map_eq_nil.1 hLsnd)
    | cons v0 vs =>
      have hcomp : compute_expected_runtime tasks topo = some (vs.foldl max v0) := by
        simp only [compute_expected_runtime, hL, hLsnd]
      refine ⟨vs.foldl max v0, hcomp, ?_, ?_⟩
      · intro t ht
        obtain ⟨v, hv, hev⟩ := hef t ht
        have hvmem : v ∈ L.map Prod.snd :=
          List.mem_map.2 ⟨(t.name, v), lookup_mem L _ _ hv, rfl⟩
        rw [hLsnd] at hvmem
        rw [hev]
        exact foldl_max_le vs v0 v hvmem
      · have hfmem : vs.foldl max v0 ∈ L.map Prod.snd := by
          rw [hLsnd]
          exact foldl_max_mem vs v0
        obtain ⟨p, hpL, hp2⟩ := List.mem_map.1 hfmem
        have hp1 : p.1 ∈ topo := by
          rw [← hLkeys2]
          exact List.mem_map_of_mem _ hpL
        obtain ⟨t, ht, htn⟩ := List.mem_map.1 (hperm.mem_iff.1 hp1)
        refine ⟨t, ht, ?_⟩
        have hlp : List.lookup t.name L = some p.2 := by
          rw [htn]
          exact lookup_of_mem_nodup L p.1 p.2 hLkeysN hpL
        rw [show efLookup L t.name = p.2 by simp [efLookup, hlp], hp2]

/-- Witness for C3: the chain `A(1) → B(2) → C(3)` in order `[A, B, C]` has a
defined expected runtime (its value computes to 6). -/
theorem compute_expected_runtime_critical_path_witness :
    ∃ v, compute_expected_runtime
      [⟨"A", 1, []⟩, ⟨"B", 2, ["A"]⟩, ⟨"C", 3, ["B"]⟩] ["A", "B", "C"] = some v := by
  obtain ⟨ef, _, v, hv, _⟩ :=
    compute_expected_runtime_critical_path
      [⟨"A", 1, []⟩, ⟨"B", 2, ["A"]⟩, ⟨"C", 3, ["B"]⟩] (by decide)
      ["A", "B", "C"] (by decide) (by decide) (by decide)
  exact ⟨v, hv⟩

/-! Monotonicity of the earliest-finish computation (claim C7). -/

theorem forall2_find? (tasks1 tasks2 : List Task)
    (hrel : List.Forall₂ (fun a b : Task =>
      a.name = b.name ∧ a.dependencies = b.dependencies ∧ a.duration ≤ b.duration)
      tasks1 tasks2) (tn : String) :
    (tasks1.find? (fun t => t.name == tn) = none ∧
      tasks2.find? (fun t => t.name == tn) = none) ∨
    ∃ t1 t2, tasks1.find? (fun t => t.name == tn) = some t1 ∧
      tasks2.find? (fun t => t.name == tn) = some t2 ∧
      t1.name = t2.name ∧ t1.dependencies = t2.dependencies ∧
      t1.duration ≤ t2.duration := by
  induction hrel with
  | nil => exact Or.inl ⟨rfl, rfl⟩
  | cons hab hrest ih =>
    rename_i a b l1 l2
    rw [List.find?_cons, List.find?_cons]
    by_cases h : (a.name == tn) = true
    · have h2 : (b.name == tn) = true := by rw [← hab.1]; exact h
      rw [h, h2]
      exact Or.inr ⟨a, b, rfl, rfl, hab.1, hab.2.1, hab.2.2⟩
    · have hf : (a.name == tn) = false := by
        cases hh : a.name == tn with
        | true => exact absurd hh h
        | false => rfl
      have hf2 : (b.name == tn) = false := by rw [← hab.1]; exact hf
      rw [hf, hf2]
      exact ih

theorem forall2_lookup (acc1 acc2 : List (String × Int))
    (hrel : List.Forall₂ (fun p q : String × Int => p.1 = q.1 ∧ p.2 ≤ q.2) acc1 acc2)
    (x : String) :
    (List.lookup x acc1 = none ∧ List.lookup x acc2 = none) ∨
    ∃ v1 v2, List.lookup x acc1 = some v1 ∧ List.lookup x acc2 = some v2 ∧
      v1 ≤ v2 := by
  induction hrel with
  | nil => exact Or.inl ⟨rfl, rfl⟩
  | cons hpq hrest ih =>
    rename_i p q l1 l2
    obtain ⟨px, pv⟩ := p
    obtain ⟨qx, qv⟩ := q
    have hx : px = qx := hpq.1
    subst hx
    rw [List.lookup_cons, List.lookup_cons]
    by_cases h : (x == px) = true
    · rw [h]
      exact Or.inr ⟨pv, qv, rfl, rfl, hpq.2⟩
    · have hf : (x == px) = false := by
        cases hh : x == px with
        | true => exact absurd hh h
        | false => rfl
      rw [hf]
      exact ih

theorem forall2_maxDepEF (acc1 acc2 : List (String × Int))
    (hrel : List.Forall₂ (fun p q : String × Int => p.1 = q.1 ∧ p.2 ≤ q.2) acc1 acc2) :
    ∀ deps : List String,
      (maxDepEF acc1 deps = none ∧ maxDepEF acc2 deps = none) ∨
      ∃ m1 m2, maxDepEF acc1 deps = some m1 ∧ maxDepEF acc2 deps = some m2 ∧
        m1 ≤ m2 := by
  intro deps
  induction deps with
  | nil => exact Or.inl ⟨rfl, rfl⟩
  | cons d rest ih =>
    cases rest with
    | nil =>
      rcases forall2_lookup acc1 acc2 hrel d with ⟨h1, h2⟩ | ⟨v1, v2, h1, h2, hle⟩
      · exact Or.inl ⟨h1, h2⟩
      · exact Or.inr ⟨v1, v2, h1, h2, hle⟩
    | cons e rest2 =>
      rcases forall2_lookup acc1 acc2 hrel d with ⟨h1, h2⟩ | ⟨v1, v2, h1, h2, hle⟩
      · left
        constructor
        · show (match List.lookup d acc1, maxDepEF acc1 (e :: rest2) with
            | some v, some m => some (max v m)
            | _, _ => none) = none
          rw [h1]
        · show (match List.lookup d acc2, maxDepEF acc2 (e :: rest2) with
            | some v, some m => some (max v m)
            | _, _ => none) = none
          rw [h2]
      · rcases ih with ⟨g1, g2⟩ | ⟨m1, m2, g1, g2, gle⟩
        · left
          constructor
          · show (match List.lookup d acc1, maxDepEF acc1 (e :: rest2) with
              | some v, some m => some (max v m)
              | _, _ => none) = none
            rw [h1, g1]
          · show (match List.lookup d acc2, maxDepEF acc2 (e :: rest2) with
              | some v, some m => some (max v m)
              | _, _ => none) = none
            rw [h2, g2]
        · right
          refine ⟨max v1 m1, max v2 m2, ?_, ?_, max_le_max hle gle⟩
          · show (match List.lookup d acc1, maxDepEF acc1 (e :: rest2) with
              | some v, some m => some (max v m)
              | _, _ => none) = some (max v1 m1)
            rw [h1, g1]
          · show (match List.lookup d acc2, maxDepEF acc2 (e :: rest2) with
              | some v, some m => some (max v m)
              | _, _ => none) = some (max v2 m2)
            rw [h2, g2]

theorem computeEF_mono (tasks1 tasks2 : List Task)
    (hrel : List.Forall₂ (fun a b : Task =>
      a.name = b.name ∧ a.dependencies = b.dependencies ∧ a.duration ≤ b.duration)
      tasks1 tasks2) :
    ∀ (topo : List String) (acc1 acc2 : List (String × Int)),
      List.Forall₂ (fun p q : String × Int => p.1 = q.1 ∧ p.2 ≤ q.2) acc1 acc2 →
      ∀ L1, computeEF tasks1 topo acc1 = some L1 →
        ∃ L2, computeEF tasks2 topo acc2 = some L2 ∧
          List.Forall₂ (fun p q : String × Int => p.1 = q.1 ∧ p.2 ≤ q.2) L1 L2 := by
  intro topo
  induction topo with
  | nil =>
    intro acc1 acc2 hacc L1 hL1
    have hacc1 : acc1 = L1 := by
      have h2 : (some acc1 : Option (List (String × Int))) = some L1 := hL1
      injection h2
    refine ⟨acc2, rfl, ?_⟩
    rw [← hacc1]
    exact hacc
  | cons tn rest ih =>
    intro acc1 acc2 hacc L1 hL1
    rcases forall2_find? tasks1 tasks2 hrel tn with ⟨hf1, hf2⟩ |
      ⟨t1, t2, hf1, hf2, hname, hdeps, hdur⟩
    · exfalso
      simp only [computeEF, hf1] at hL1
      exact Option.noConfusion hL1
    · cases hdt : t1.dependencies with
      | nil =>
        have hdt2 : t2.dependencies = [] := by rw [← hdeps]; exact hdt
        simp only [computeEF, hf1, hdt] at hL1
        have hacc2 : List.Forall₂ (fun p q : String × Int => p.1 = q.1 ∧ p.2 ≤ q.2)
            (acc1 ++ [(tn, t1.duration)]) (acc2 ++ [(tn, t2.duration)]) :=
          List.rel_append hacc
            (List.Forall₂.cons ⟨rfl, hdur⟩ List.Forall₂.nil)
        obtain ⟨L2, hL2, hrelL⟩ := ih _ _ hacc2 L1 hL1
        refine ⟨L2, ?_, hrelL⟩
        simp only [computeEF, hf2, hdt2]
        exact hL2
      | cons d ds =>
        have hdt2 : t2.dependencies = d :: ds := by rw [← hdeps]; exact hdt
        rcases forall2_maxDepEF acc1 acc2 hacc (d :: ds) with ⟨hm1, hm2⟩ |
          ⟨m1, m2, hm1, hm2, hmle⟩
        · exfalso
          simp only [computeEF, hf1, hdt, hm1] at hL1
          exact Option.noConfusion hL1
        · simp only [computeEF, hf1, hdt, hm1] at hL1
          have hacc2 : List.Forall₂ (fun p q : String × Int => p.1 = q.1 ∧ p.2 ≤ q.2)
              (acc1 ++ [(tn, m1 + t1.duration)]) (acc2 ++ [(tn, m2 + t2.duration)]) :=
            List.rel_append hacc
              (List.Forall₂.cons ⟨rfl, add_le_add hmle hdur⟩ List.Forall₂.nil)
          obtain ⟨L2, hL2, hrelL⟩ := ih _ _ hacc2 L1 hL1
          refine ⟨L2, ?_, hrelL⟩
          simp only [computeEF, hf2, hdt2, hm2]
          exact hL2

theorem forall2_map_snd (L1 L2 : List (String × Int))
    (hrel : List.Forall₂ (fun p q : String × Int => p.1 = q.1 ∧ p.2 ≤ q.2) L1 L2) :
    List.Forall₂ (· ≤ ·) (L1.map Prod.snd) (L2.map Prod.snd) := by
  induction hrel with
  | nil => exact List.Forall₂.nil
  | cons hpq hrest ih => exact List.Forall₂.cons hpq.2 ih

theorem setDuration_rel (tasks : List Task) (tname : String) (d1 d2 : Int)
    (h12 : d1 ≤ d2) :
    List.Forall₂ (fun a b : Task =>
      a.name = b.name ∧ a.dependencies = b.dependencies ∧ a.duration ≤ b.duration)
      (setDuration tasks tname d1) (setDuration tasks tname d2) := by
  unfold setDuration
  induction tasks with
  | nil => exact List.Forall₂.nil
  | cons t rest ihr =>
    rw [List.map_cons, List.map_cons]
    refine List.Forall₂.cons ?_ ihr
    by_cases h : t.name = tname
    · rw [if_pos h, if_pos h]
      exact ⟨rfl, rfl, h12⟩
    · rw [if_neg h, if_neg h]
      exact ⟨rfl, rfl, le_refl _⟩

/-- C7: holding the task set's structure fixed, `compute_expected_runtime` is
monotonically non-decreasing in any single task's duration: whenever the run
with the smaller duration `d1 ≤ d2` for task `tname` returns a value, the run
with `d2` also returns a value at least as large. -/
theorem compute_expected_runtime_monotone (tasks : List Task) (tname : String)
    (d1 d2 : Int) (h12 : d1 ≤ d2) (topo : List String) (v1 : Int)
    (h1 : compute_expected_runtime (setDuration tasks tname d1) topo = some v1) :
    ∃ v2, compute_expected_runtime (setDuration tasks tname d2) topo = some v2 ∧
      v1 ≤ v2 := by
  have hrel := setDuration_rel tasks tname d1 d2 h12
  cases hc1 : computeEF (setDuration tasks tname d1) topo [] with
  | none =>
    exfalso
    simp only [compute_expected_runtime, hc1] at h1
    exact Option.noConfusion h1
  | some L1 =>
    obtain ⟨L2, hc2, hrelL⟩ :=
      computeEF_mono _ _ hrel topo [] [] List.Forall₂.nil L1 hc1
    have hsnd := forall2_map_snd L1 L2 hrelL
    simp only [compute_expected_runtime, hc1] at h1
    cases hm1 : L1.map Prod.snd with
    | nil =>
      exfalso
      rw [hm1] at h1
      simp at h1
    | cons w0 ws =>
      rw [hm1] at h1 hsnd
      cases hm2 : L2.map Prod.snd with
      | nil =>
        exfalso
        rw [hm2] at hsnd
        cases hsnd
      | cons u0 us =>
        rw [hm2] at hsnd
        cases hsnd with
        | cons hw hws =>
          have hv1 : ws.foldl max w0 = v1 := by
            have h2 : (some (ws.foldl max w0) : Option Int) = some v1 := h1
            injection h2
          refine ⟨us.foldl max u0, ?_, ?_⟩
          · simp only [compute_expected_runtime, hc2, hm2]
          · rw [← hv1]
            exact foldl_max_mono ws us hws w0 u0 hw

/-- Witness for C7: raising task `B`'s declared duration from 2 to 5 in the
chain `A(1) → B` cannot lower the expected runtime below the value 3 computed
with duration 2. -/
theorem compute_expected_runtime_monotone_witness :
    ∃ v2, compute_expected_runtime
        (setDuration [⟨"A", 1, []⟩, ⟨"B", 0, ["A"]⟩] "B" 5) ["A", "B"] = some v2 ∧
      (3 : Int) ≤ v2 :=
  compute_expected_runtime_monotone [⟨"A", 1, []⟩, ⟨"B", 0, ["A"]⟩] "B" 2 5
    (by decide) ["A", "B"] 3 (by decide)

/-! Step equations for the parser loop (claim C8). -/

theorem parseRecords_cons_ignored (line : String) (rest : List String) (n : Nat)
    (acc : List Task) (h : isIgnored line = true) :
    parseRecords (line :: rest) n acc = parseRecords rest (n + 1) acc := by
  simp only [parseRecords]
  have h2 : ((strip line.data).isEmpty || (strip line.data).headD ' ' = '#') = true := h
  rw [h2, if_pos rfl]

theorem parseRecords_cons_short (line : String) (rest : List String) (n : Nat)
    (acc : List Task) (h : isIgnored line = false)
    (hsp : (split2 (strip line.data)).length < 2) :
    parseRecords (line :: rest) n acc =
      .error ("Line " ++ toString n ++ ": must have at least \x27name,duration\x27.") := by
  simp only [parseRecords]
  have h2 : ((strip line.data).isEmpty || (strip line.data).headD ' ' = '#') = false := h
  rw [h2, if_neg Bool.false_ne_true]
  cases hs : split2 (strip line.data) with
  | nil => rfl
  | cons p0 t =>
    cases t with
    | nil => rfl
    | cons p1 r =>
      exfalso
      rw [hs] at hsp
      simp at hsp
      omega

theorem parseRecords_cons_baddur (line : String) (rest : List String) (n : Nat)
    (acc : List Task) (p0 p1 : List Char) (r : List (List Char))
    (h : isIgnored line = false)
    (hsp : split2 (strip line.data) = p0 :: p1 :: r)
    (hdur : pyInt (strip p1) = none) :
    parseRecords (line :: rest) n acc =
      .error ("Line " ++ toString n ++ ": Duration must be integer.") := by
  simp only [parseRecords]
  have h2 : ((strip line.data).isEmpty || (strip line.data).headD ' ' = '#') = false := h
  rw [h2, if_neg Bool.false_ne_true, hsp]
  simp only [hdur]

theorem parseRecords_cons_dup (line : String) (rest : List String) (n : Nat)
    (acc : List Task) (p0 p1 : List Char) (r : List (List Char)) (dur : Int)
    (h : isIgnored line = false)
    (hsp : split2 (strip line.data) = p0 :: p1 :: r)
    (hdur : pyInt (strip p1) = some dur)
    (hdup : String.mk (strip p0) ∈ names acc) :
    parseRecords (line :: rest) n acc =
      .error ("Line " ++ toString n ++ ": Duplicate task name \x27"
        ++ String.mk (strip p0) ++ "\x27.") := by
  simp only [parseRecords]
  have h2 : ((strip line.data).isEmpty || (strip line.data).headD ' ' = '#') = false := h
  rw [h2, if_neg Bool.false_ne_true, hsp]
  simp only [hdur]
  rw [if_pos hdup]

theorem parseRecords_cons_ok (line : String) (rest : List String) (n : Nat)
    (acc : List Task) (p0 p1 : List Char) (r : List (List Char)) (dur : Int)
    (h : isIgnored line = false)
    (hsp : split2 (strip line.data) = p0 :: p1 :: r)
    (hdur : pyInt (strip p1) = some dur)
    (hfresh : String.mk (strip p0) ∉ names acc) :
    parseRecords (line :: rest) n acc =
      parseRecords rest (n + 1)
        (acc ++ [⟨String.mk (strip p0), dur, depsFromField r⟩]) := by
  simp only [parseRecords]
  have h2 : ((strip line.data).isEmpty || (strip line.data).headD ' ' = '#') = false := h
  rw [h2, if_neg Bool.false_ne_true, hsp]
  simp only [hdur]
  rw [if_neg hfresh]

theorem parseRecords_error_spec (lines : List String) :
    ∀ (n : Nat) (acc : List Task) (e : String),
      parseRecords lines n acc = Except.error e →
      ∃ i, ∃ hi : i < lines.length,
        isIgnored (lines.get ⟨i, hi⟩) = false ∧
        ∃ ts, parseRecords (lines.take i) n acc = Except.ok ts ∧
          ((isMalformed (lines.get ⟨i, hi⟩) = true ∧
            e = "Line " ++ toString (n + i)
              ++ ": must have at least \x27name,duration\x27.") ∨
          (isMalformed (lines.get ⟨i, hi⟩) = false ∧
            (∃ f, durationField (lines.get ⟨i, hi⟩) = some f ∧ pyInt f = none) ∧
            e = "Line " ++ toString (n + i) ++ ": Duration must be integer.") ∨
          (isMalformed (lines.get ⟨i, hi⟩) = false ∧
            (∃ f, durationField (lines.get ⟨i, hi⟩) = some f ∧
              (pyInt f).isSome = true) ∧
            recName (lines.get ⟨i, hi⟩) ∈ names ts ∧
            e = "Line " ++ toString (n + i) ++ ": Duplicate task name \x27"
              ++ recName (lines.get ⟨i, hi⟩) ++ "\x27.")) := by
  induction lines with
  | nil =>
    intro n acc e h
    exact Except.noConfusion h
  | cons line rest ih =>
    intro n acc e h
    by_cases higt : isIgnored line = true
    · rw [parseRecords_cons_ignored line rest n acc higt] at h
      obtain ⟨i, hi, hig2, ts, hok, hcase⟩ := ih (n + 1) acc e h
      refine ⟨i + 1, by simp only [List.length_cons]; omega, hig2, ts, ?_, ?_⟩
      · rw [List.take_succ_cons, parseRecords_cons_ignored line _ n acc higt]
        exact hok
      · have heq : n + 1 + i = n + (i + 1) := by omega
        rw [heq] at hcase
        exact hcase
    · have hig : isIgnored line = false := by
        cases hb : isIgnored line with
        | true => exact absurd hb higt
        | false => rfl
      have hmal : (split2 (strip line.data)).length < 2 → isMalformed line = true := by
        intro hl
        simp [isMalformed, hl]
      cases hsp : split2 (strip line.data) with
      | nil =>
        rw [parseRecords_cons_short line rest n acc hig (by rw [hsp]; simp)] at h
        injection h with h
        refine ⟨0, by simp, hig, acc, rfl, Or.inl ⟨hmal (by rw [hsp]; simp), ?_⟩⟩
        rw [Nat.add_zero]
        exact h.symm
      | cons p0 t =>
        cases t with
        | nil =>
          rw [parseRecords_cons_short line rest n acc hig (by rw [hsp]; simp)] at h
          injection h with h
          refine ⟨0, by simp, hig, acc, rfl, Or.inl ⟨hmal (by rw [hsp]; simp), ?_⟩⟩
          rw [Nat.add_zero]
          exact h.symm
        | cons p1 r =>
          have hmal2 : isMalformed line = false := by
            simp [isMalformed, hsp]
          have hdf : durationField line = some (strip p1) := by
            simp [durationField, hsp]
          cases hdur : pyInt (strip p1) with
          | none =>
            rw [parseRecords_cons_baddur line rest n acc p0 p1 r hig hsp hdur] at h
            injection h with h
            refine ⟨0, by simp, hig, acc, rfl,
              Or.inr (Or.inl ⟨hmal2, ⟨strip p1, hdf, hdur⟩, ?_⟩)⟩
            rw [Nat.add_zero]
            exact h.symm
          | some dur =>
            have hrn : recName line = String.mk (strip p0) := by
              simp [recName, hsp]
            by_cases hdup : String.mk (strip p0) ∈ names acc
            · rw [parseRecords_cons_dup line rest n acc p0 p1 r dur hig hsp hdur hdup] at h
              injection h with h
              refine ⟨0, by simp, hig, acc, rfl,
                Or.inr (Or.inr ⟨hmal2, ⟨strip p1, hdf, by rw [hdur]; rfl⟩, ?_, ?_⟩)⟩
              · show recName line ∈ names acc
                rw [hrn]
                exact hdup
              · show e = "Line " ++ toString (n + 0) ++ ": Duplicate task name \x27"
                  ++ recName line ++ "\x27."
                rw [Nat.add_zero, hrn]
                exact h.symm
            · rw [parseRecords_cons_ok line rest n acc p0 p1 r dur hig hsp hdur hdup] at h
              obtain ⟨i, hi, hig2, ts, hok, hcase⟩ := ih (n + 1) _ e h
              refine ⟨i + 1, by simp only [List.length_cons]; omega, hig2, ts, ?_, ?_⟩
              · rw [List.take_succ_cons,
                  parseRecords_cons_ok line _ n acc p0 p1 r dur hig hsp hdur hdup]
                exact hok
              · have heq : n + 1 + i = n + (i + 1) := by omega
                rw [heq] at hcase
                exact hcase

theorem parseRecords_complete (lines : List String) :
    ∀ (n : Nat) (acc : List Task),
      (∀ i, (hi : i < lines.length) → isIgnored (lines.get ⟨i, hi⟩) = false →
        isMalformed (lines.get ⟨i, hi⟩) = false ∧
        ∃ f, durationField (lines.get ⟨i, hi⟩) = some f ∧ (pyInt f).isSome = true) →
      (names acc ++ (lines.filter (fun l => !(isIgnored l))).map recName).Nodup →
      ∃ ts, parseRecords lines n acc = Except.ok ts ∧
        names ts = names acc ++
          (lines.filter (fun l => !(isIgnored l))).map recName := by
  induction lines with
  | nil =>
    intro n acc hwf hnd
    exact ⟨acc, rfl, by simp⟩
  | cons line rest ih =>
    intro n acc hwf hnd
    by_cases higt : isIgnored line = true
    · rw [parseRecords_cons_ignored line rest n acc higt]
      have hfil : (line :: rest).filter (fun l => !(isIgnored l)) =
          rest.filter (fun l => !(isIgnored l)) := by
        rw [List.filter_cons]
        simp [higt]
      rw [hfil] at hnd
      obtain ⟨ts, hok, hnames⟩ := ih (n + 1) acc
        (fun i hi => hwf (i + 1) (by simp only [List.length_cons]; omega)) hnd
      refine ⟨ts, hok, ?_⟩
      rw [hnames, hfil]
    · have hig : isIgnored line = false := by
        cases hb : isIgnored line with
        | true => exact absurd hb higt
        | false => rfl
      obtain ⟨hmal0, f, hdf0, hfs⟩ := hwf 0 (by simp) hig
      have hmal : isMalformed line = false := hmal0
      have hdf : durationField line = some f := hdf0
      cases hsp : split2 (strip line.data) with
      | nil =>
        exfalso
        have : isMalformed line = true := by simp [isMalformed, hsp]
        rw [this] at hmal
        cases hmal
      | cons p0 t =>
        cases t with
        | nil =>
          exfalso
          have : isMalformed line = true := by simp [isMalformed, hsp]
          rw [this] at hmal
          cases hmal
        | cons p1 r =>
          have hdf2 : durationField line = some (strip p1) := by
            simp [durationField, hsp]
          have hf : strip p1 = f := by
            rw [hdf2] at hdf
            injection hdf
          obtain ⟨dur, hdur⟩ := Option.isSome_iff_exists.1 (hf ▸ hfs)
          have hrn : recName line = String.mk (strip p0) := by
            simp [recName, hsp]
          have hfil : (line :: rest).filter (fun l => !(isIgnored l)) =
              line :: rest.filter (fun l => !(isIgnored l)) := by
            rw [List.filter_cons]
            simp [hig]
          rw [hfil, List.map_cons] at hnd
          have hfresh : String.mk (strip p0) ∉ names acc := by
            rw [← hrn]
            intro hmem
            have hd := List.disjoint_of_nodup_append hnd
            exact hd hmem (List.mem_cons_self _ _)
          rw [parseRecords_cons_ok line rest n acc p0 p1 r dur hig hsp hdur hfresh]
          have hna : names (acc ++ [⟨String.mk (strip p0), dur, depsFromField r⟩]) =
              names acc ++ [String.mk (strip p0)] := by
            simp [names]
          have hnd2 : (names (acc ++ [⟨String.mk (strip p0), dur, depsFromField r⟩]) ++
              (rest.filter (fun l => !(isIgnored l))).map recName).Nodup := by
            rw [hna, ← List.append_cons]
            rw [hrn] at hnd
            exact hnd
          obtain ⟨ts, hok, hnames⟩ := ih (n + 1) _
            (fun i hi => hwf (i + 1) (by simp only [List.length_cons]; omega)) hnd2
          refine ⟨ts, hok, ?_⟩
          rw [hnames, hna, hfil, List.map_cons, hrn, ← List.append_cons]

/-- C8: `parse_tasks` ignores blank lines and lines starting with `#`, and
fails exactly on malformed records (fewer than two comma-separated fields),
non-integer durations, and duplicate task names, citing the offending
record's 1-based line number.  Error part: every failure points at a
non-ignored offending line `i` (0-based) whose preceding lines parsed
cleanly, falls into exactly one of the three kinds, and carries the message
citing line `i + 1`.  Success part: when every non-ignored line is
well-formed and the record names are pairwise distinct, parsing succeeds and
produces exactly one task per non-ignored record, in order. -/
theorem parse_tasks_characterization (lines : List String) :
    (∀ e, parse_tasks lines = Except.error e →
      ∃ i, ∃ hi : i < lines.length,
        isIgnored (lines.get ⟨i, hi⟩) = false ∧
        ∃ ts, parse_tasks (lines.take i) = Except.ok ts ∧
          ((isMalformed (lines.get ⟨i, hi⟩) = true ∧
            e = "Line " ++ toString (i + 1)
              ++ ": must have at least \x27name,duration\x27.") ∨
          (isMalformed (lines.get ⟨i, hi⟩) = false ∧
            (∃ f, durationField (lines.get ⟨i, hi⟩) = some f ∧ pyInt f = none) ∧
            e = "Line " ++ toString (i + 1) ++ ": Duration must be integer.") ∨
          (isMalformed (lines.get ⟨i, hi⟩) = false ∧
            (∃ f, durationField (lines.get ⟨i, hi⟩) = some f ∧
              (pyInt f).isSome = true) ∧
            recName (lines.get ⟨i, hi⟩) ∈ names ts ∧
            e = "Line " ++ toString (i + 1) ++ ": Duplicate task name \x27"
              ++ recName (lines.get ⟨i, hi⟩) ++ "\x27."))) ∧
    ((∀ i, (hi : i < lines.length) → isIgnored (lines.get ⟨i, hi⟩) = false →
        isMalformed (lines.get ⟨i, hi⟩) = false ∧
        ∃ f, durationField (lines.get ⟨i, hi⟩) = some f ∧ (pyInt f).isSome = true) →
      ((lines.filter (fun l => !(isIgnored l))).map recName).Nodup →
      ∃ ts, parse_tasks lines = Except.ok ts ∧
        names ts = (lines.filter (fun l => !(isIgnored l))).map recName) := by
  constructor
  · intro e h
    obtain ⟨i, hi, hig, ts, hok, hcase⟩ := parseRecords_error_spec lines 1 [] e h
    refine ⟨i, hi, hig, ts, hok, ?_⟩
    have heq : 1 + i = i + 1 := by omega
    rw [heq] at hcase
    exact hcase
  · intro hwf hnd
    obtain ⟨ts, hok, hnames⟩ :=
      parseRecords_complete lines 1 [] hwf (by simpa [names] using hnd)
    exact ⟨ts, hok, by simpa [names] using hnames⟩

/-- Witness for C8: the file `A,1` / blank / `# note` / `B,2,A` has only
well-formed non-ignored records with fresh names, so it parses into exactly
the records `A` and `B`. -/
theorem parse_tasks_characterization_witness :
    ∃ ts, parse_tasks ["A,1", "", "# note", "B,2,A"] = Except.ok ts ∧
      names ts = ((["A,1", "", "# note", "B,2,A"] : List String).filter
        (fun l => !(isIgnored l))).map recName :=
  (parse_tasks_characterization ["A,1", "", "# note", "B,2,A"]).2
    (by decide) (by decide)

end BitDigital
